import Mathlib

/-!
Verification of the EthBMC symbolic-execution environment model
(`esvm/src/se/env.rs` and the solver selection in `esvm/src/main.rs`).

The environment model is embedded shallowly: Rust structs become Lean
structures, `HashMap` becomes an association list with insert-or-replace
semantics, the process-wide fresh-name counter and the thread-local RNG are
threaded explicitly as state, and fallible operations (`unwrap`, indexing)
return `Option`.  Parts of the crate that `env.rs` uses but whose source is
not part of this development (`bval.rs`, `config.rs`, `symbolic_memory.rs`,
the `genesis` module of `evmexec`, and the third-party `hexdecode` crate)
are modelled from the specification; each such definition carries a doc
comment starting with `Modelled from the spec:`.
-/

namespace EthBMC


/-! ### Decimal rendering

`Counter::fresh_var_name` renders the counter with `format!("{}_{}", ...)`,
i.e. with the decimal representation of a `usize`.  The Lean model uses
`Nat.repr`.  To reason about distinctness of generated names we prove that
`Nat.repr` is injective. -/

/-- Decimal digit characters of `n`, most significant first. -/
def decChars (n : Nat) : List Char :=
  if _h : n < 10 then [Nat.digitChar n]
  else decChars (n / 10) ++ [Nat.digitChar (n % 10)]
  termination_by n
  decreasing_by exact Nat.div_lt_self (by omega) (by omega)


/-! ### Association lists

`std::collections::HashMap` is modelled as an association list whose keys
are unique; `alistInsert` replaces the value of an existing key in place and
appends a fresh key at the end, which matches `HashMap::insert`
observationally (lookup of the inserted key yields the new value, every
other key is untouched). -/

def alistInsert {K V : Type} [DecidableEq K] (l : List (K × V)) (k : K) (v : V) :
    List (K × V) :=
  match l with
  | [] => [(k, v)]
  | (k', v') :: rest =>
    if k' = k then (k', v) :: rest else (k', v') :: alistInsert rest k v


/-! ### Symbolic bit-vector terms -/

/-- Modelled from the spec: `BVal` (spec §3) is an immutable node of a
hash-consed term DAG built by the constructor functions of `bval.rs`
(`const256`, `const_usize`, `const_vec`, `fresh_var`/`var`, `add`, `sub`,
`lt`, `le`, `eql`).  The source of `bval.rs` is not part of this
development; the claims under verification only apply these constructors to
terms containing variables, so the eager constant folding described by the
spec never fires and the free term algebra is a faithful model.  Because the
Rust DAG is hash-consed, its pointer/`PartialEq` equality coincides with the
structural equality of this type. -/
inductive BVal where
  | const256 (s : String)
  | constUsize (n : Nat)
  | constVec (bytes : List Nat)
  | var (name : String)
  | add (a b : BVal)
  | sub (a b : BVal)
  | lt (a b : BVal)
  | le (a b : BVal)
  | eql (a b : BVal)
deriving DecidableEq, Repr


/-- Big-endian byte-list value. -/
def bytesToNat (bs : List Nat) : Nat :=
  bs.foldl (fun acc b => acc * 256 + b % 256) 0


/-- Modelled from the spec: 256-bit word semantics of a term (spec §4.1,
"integer ops use 256-bit arithmetic modulo 2^256").  `ρ` values the named
constants of `config.rs` (whose source is absent), `σ` values the symbolic
variables; comparison terms evaluate to 0/1.  Every result is reduced
`% 2^256`. -/
def BVal.evalW (ρ σ : String → Nat) : BVal → Nat
  | .const256 s => ρ s % 2 ^ 256
  | .constUsize n => n % 2 ^ 256
  | .constVec bs => bytesToNat bs % 2 ^ 256
  | .var s => σ s % 2 ^ 256
  | .add a b => (a.evalW ρ σ + b.evalW ρ σ) % 2 ^ 256
  | .sub a b => (a.evalW ρ σ + 2 ^ 256 - b.evalW ρ σ) % 2 ^ 256
  | .lt a b => if a.evalW ρ σ < b.evalW ρ σ then 1 else 0
  | .le a b => if a.evalW ρ σ ≤ b.evalW ρ σ then 1 else 0
  | .eql a b => if a.evalW ρ σ = b.evalW ρ σ then 1 else 0


/-! ### Configuration constants

Modelled from the spec: `config.rs` is not part of this development; its
string constants are modelled as opaque distinct names (the claims under
verification depend only on their identity, never on their numeric
value). -/

def MAX_GASPRICE : String := "MAX_GASPRICE"


def GAS_LIMIT : String := "GAS_LIMIT"


def MAX_DIFFICULTY : String := "MAX_DIFFICULTY"


def MAX_NUMBER : String := "MAX_NUMBER"


def MAX_TIMESTAMP : String := "MAX_TIMESTAMP"


def COINBASE : String := "COINBASE"


def BLOCKHASH : String := "BLOCKHASH"


def MAX_GAS : String := "MAX_GAS"


def MAX_CALLVAL : String := "MAX_CALLVAL"


def MAX_CALLDATA_SIZE : String := "MAX_CALLDATA_SIZE"


def HIJACK_ADDR : String := "HIJACK_ADDR"


def ORIGIN : String := "ORIGIN"


def TARGET_ADDR : String := "TARGET_ADDR"


/-! ### The process-wide fresh-name counter (`Counter`, env.rs lines 67-103) -/

/-- The three per-prefix counters of the global `Counter` struct
(`tx_counters`, `acc_counters`, `var_counters`), each a map
`String → usize`. -/
structure Counter where
  txCounters : List (String × Nat)
  accCounters : List (String × Nat)
  varCounters : List (String × Nat)
deriving DecidableEq, Repr


def Counter.new : Counter := ⟨[], [], []⟩


/-- `entry(name).or_insert(0); *entry += 1` on one of the maps: returns the
incremented count together with the updated map. -/
def bumpCount (l : List (String × Nat)) (name : String) : Nat × List (String × Nat) :=
  match l with
  | [] => (1, [(name, 1)])
  | (k, v) :: rest =>
    if k = name then (v + 1, (k, v + 1) :: rest)
    else
      let r := bumpCount rest name
      (r.1, (k, v) :: r.2)


/-- Current count of a prefix (0 when absent), mirroring
`or_insert(0)`. -/
def countOf (l : List (String × Nat)) (name : String) : Nat :=
  (l.lookup name).getD 0


/-- `Counter::fresh_var_name` (env.rs lines 86-90). -/
def Counter.freshVarName (c : Counter) (name : String) : String × Counter :=
  let r := bumpCount c.varCounters name
  (name ++ "_" ++ Nat.repr r.1, { c with varCounters := r.2 })


/-- `Counter::fresh_account_name` (env.rs lines 92-96). -/
def Counter.freshAccountName (c : Counter) (name : String) : String × Counter :=
  let r := bumpCount c.accCounters name
  (name ++ "_" ++ Nat.repr r.1, { c with accCounters := r.2 })


/-- `Counter::fresh_tx_name` (env.rs lines 98-102). -/
def Counter.freshTxName (c : Counter) (name : String) : String × Counter :=
  let r := bumpCount c.txCounters name
  (name ++ "_" ++ Nat.repr r.1, { c with txCounters := r.2 })


/-! ### Global effect state

The source reaches two process-wide effects from `env.rs`: the
`GLOBAL_COUNTER` mutex and `rand::thread_rng()`.  Both are threaded
explicitly. -/

/-- Modelled from the spec: the explicit state for the process-wide
fresh-name counter and for the thread-local RNG.  `rng` is an oracle
stream of byte vectors; `generate_random_vec` (env.rs lines 32-40) samples
32 random bytes and keccak-hashes them, which the model abstracts as
consuming the next 32-byte draw of the oracle. -/
structure GState where
  counter : Counter
  rng : Nat → List Nat
  rngIdx : Nat


/-- `fresh_var_name` free function (env.rs lines 54-56). -/
def freshVarNameG (gs : GState) (name : String) : String × GState :=
  let r := gs.counter.freshVarName name
  (r.1, { gs with counter := r.2 })


def freshAccountNameG (gs : GState) (name : String) : String × GState :=
  let r := gs.counter.freshAccountName name
  (r.1, { gs with counter := r.2 })


def freshTxNameG (gs : GState) (name : String) : String × GState :=
  let r := gs.counter.freshTxName name
  (r.1, { gs with counter := r.2 })


/-- Modelled from the spec: `fresh_var` of `bval.rs` issues a symbolic
variable named by the process-wide counter ("Fresh names are issued by a
process-wide counter keyed by prefix"). -/
def freshVar (gs : GState) (name : String) : BVal × GState :=
  let r := freshVarNameG gs name
  (BVal.var r.1, r.2)


/-- `generate_random_vec` (env.rs lines 32-40): 32 random bytes, keccak'd;
abstracted as one 32-byte oracle draw. -/
def generateRandomVec (gs : GState) : List Nat × GState :=
  (((gs.rng gs.rngIdx).take 32).map (· % 256), { gs with rngIdx := gs.rngIdx + 1 })


/-- `generate_random_hash` (env.rs lines 42-44). -/
def generateRandomHash (gs : GState) : BVal × GState :=
  let r := generateRandomVec gs
  (BVal.constVec r.1, r.2)


/-- `generate_random_address` (env.rs lines 46-48): the first 20 bytes of a
random vector. -/
def generateRandomAddress (gs : GState) : BVal × GState :=
  let r := generateRandomVec gs
  (BVal.constVec (r.1.take 20), r.2)


/-! ### Identifiers -/

/-- `AccountId` (env.rs line 293). -/
structure AccountId where
  val : Nat
deriving DecidableEq, Repr


/-- `TxId` (env.rs line 296). -/
structure TxId where
  val : Nat
deriving DecidableEq, Repr


/-! ### Symbolic memory -/

/-- Modelled from the spec: `MemoryType` of `symbolic_memory.rs`
(spec §3: `kind ∈ {Memory, Calldata, Returndata, Storage, Data}`). -/
inductive MemoryType where
  | memory
  | calldata
  | returndata
  | storage
  | data
deriving DecidableEq, Repr


/-- Modelled from the spec: a memory-table operation (spec §3 `MemOp`),
restricted to the operations the environment model performs
(`create_new_memory` producing a fresh base and `word_write` producing a
256-bit write). -/
inductive MemOp where
  | fresh (name : String) (size : Option BVal)
  | write256 (index word : BVal)
deriving DecidableEq, Repr


/-- Modelled from the spec: one entry of the process-wide memory table
(spec §3: `{kind, parent: Option<MVal>, op: MemOp}`; storage memories are
tagged with their owning `AccountId`). -/
structure MemEntry where
  kind : MemoryType
  parent : Option Nat
  op : MemOp
  owner : Option AccountId
deriving DecidableEq, Repr


/-- `MVal` is an identifier into the memory table. -/
abbrev MVal := Nat


/-- Modelled from the spec: the process-wide memory table, as the list of
its entries; an `MVal` indexes into it. -/
abbrev SymbolicMemory := List MemEntry


/-- `symbolic_memory::new_memory`: the empty table. -/
def newMemory : SymbolicMemory := []


/-- Modelled from the spec: `create_new_memory` appends a fresh base entry
and returns its index. -/
def createNewMemory (mem : SymbolicMemory) (name : String) (ty : MemoryType)
    (size : Option BVal) (owner : Option AccountId) : MVal × SymbolicMemory :=
  (mem.length, mem ++ [⟨ty, none, MemOp.fresh name size, owner⟩])


/-- Modelled from the spec: `word_write` appends a 256-bit write whose
parent is the written memory and returns the new index (spec §4.2: a write
produces a *new* `MVal` with parent = the old one). -/
def wordWrite (mem : SymbolicMemory) (m : MVal) (index word : BVal) :
    MVal × SymbolicMemory :=
  let entry : MemEntry :=
    { kind := ((mem.get? m).map MemEntry.kind).getD MemoryType.storage
      parent := some m
      op := MemOp.write256 index word
      owner := (mem.get? m).bind MemEntry.owner }
  (mem.length, mem ++ [entry])


/-- The chain of 256-bit writes leading to `m`, oldest first, read off by
walking the parent chain (fuel-bounded; `chainWrites` instantiates the fuel
with `m + 1`, which suffices because every parent index is smaller than the
index of its child). -/
def chainWritesF (mem : SymbolicMemory) : Nat → MVal → List (BVal × BVal)
  | 0, _ => []
  | f + 1, m =>
    match mem[m]? with
    | some e =>
      match e.op, e.parent with
      | MemOp.write256 i w, some p => chainWritesF mem f p ++ [(i, w)]
      | _, _ => []
    | none => []


def chainWrites (mem : SymbolicMemory) (m : MVal) : List (BVal × BVal) :=
  chainWritesF mem (m + 1) m


/-- Parents strictly precede children in the table; both `createNewMemory`
and `wordWrite` maintain this. -/
def memWF (mem : SymbolicMemory) : Prop :=
  ∀ (i : Nat) (e : MemEntry), mem[i]? = some e → ∀ p, e.parent = some p → p < i


/-! ### Blocks -/

/-- `Block` (env.rs lines 298-312). -/
structure Block where
  gasprice : BVal
  memSize : BVal
  gasLimit : BVal
  difficulty : BVal
  number : BVal
  timestamp : BVal
  coinbase : BVal
  blockhash : BVal
  chainid : BVal
  blocknumber : Option Nat
deriving DecidableEq, Repr


/-- `Block::new` (env.rs lines 314-339): a fully symbolic block; the fresh
variables are drawn in source order (gasprice, mem_size, gas_limit,
difficulty, number, timestamp, coinbase, blockhash, chainid). -/
def Block.new (gs : GState) : Block × GState :=
  let r1 := freshVar gs "gasprice"
  let r2 := freshVar r1.2 "mem_size"
  let r3 := freshVar r2.2 "gas_limit"
  let r4 := freshVar r3.2 "difficulty"
  let r5 := freshVar r4.2 "number"
  let r6 := freshVar r5.2 "timestamp"
  let r7 := freshVar r6.2 "coinbase"
  let r8 := freshVar r7.2 "blockhash"
  let r9 := freshVar r8.2 "chainid"
  (⟨r1.1, r2.1, r3.1, r4.1, r5.1, r6.1, r7.1, r8.1, r9.1, none⟩, r9.2)


/-! ### Accounts (env.rs lines 819-938) -/

/-- `Account` (env.rs lines 819-837).  `mappings` is an association list;
`initial_storage` and `initial_balance` hold concrete `U256` values
(modelled as `Nat`). -/
structure Account where
  id : AccountId
  name : String
  addr : BVal
  balance : BVal
  storage : MVal
  mappings : List (BVal × MVal)
  selfdestruct : Bool
  owner : Option BVal
  initialStorage : Option (List (Nat × Nat))
  initialBalance : Option Nat
  initialAttackerBalance : Option BVal
  code : Option (List Nat)
  codesize : Nat
  constraints : List BVal
deriving DecidableEq, Repr


/-- `Account::new` (env.rs lines 840-879). -/
def Account.new (memory : SymbolicMemory) (id : AccountId) (name : String)
    (code : Option (List Nat)) (gs : GState) :
    Account × SymbolicMemory × GState :=
  let r1 := freshVar gs (name ++ "_account_addr")
  let r2 := freshVar r1.2 (name ++ "_account_balance")
  let rs := createNewMemory memory (name ++ "_storage") MemoryType.storage
    none (some id)
  let codesize := match code with
    | some v => v.length
    | none => 0
  (⟨id, name, r1.1, r2.1, rs.1, [], false, none, none, none, none, code,
      codesize, []⟩,
    rs.2, r2.2)


/-- `Account::get_code_byte` (env.rs lines 881-884): the outer `Option` of
the result models panic-freedom — `none` is the panic of the out-of-bounds
indexing `b[offset]`, `some r` is a normal return of `r`. -/
def Account.getCodeByte (a : Account) (offset : Nat) : Option (Option Nat) :=
  match a.code with
  | none => some none
  | some b => if h : offset < b.length then some (some (b.get ⟨offset, h⟩)) else none


/-- `Account::with_addr` (env.rs lines 894-899). -/
def Account.withAddr (memory : SymbolicMemory) (id : AccountId) (name : String)
    (addr : BVal) (gs : GState) : Account × SymbolicMemory × GState :=
  let r := Account.new memory id name none gs
  ({ r.1 with addr := addr }, r.2.1, r.2.2)


/-- `Account::with_addr_and_code` (env.rs lines 901-912). -/
def Account.withAddrAndCode (memory : SymbolicMemory) (id : AccountId)
    (name : String) (addr : BVal) (code : Option (List Nat)) (gs : GState) :
    Account × SymbolicMemory × GState :=
  let r := Account.new memory id name code gs
  ({ r.1 with addr := addr }, r.2.1, r.2.2)


/-- `Account::with_addr_code_balance` (env.rs lines 914-926). -/
def Account.withAddrCodeBalance (memory : SymbolicMemory) (id : AccountId)
    (name : String) (addr : BVal) (code : Option (List Nat)) (balance : BVal)
    (gs : GState) : Account × SymbolicMemory × GState :=
  let r := Account.withAddrAndCode memory id name addr code gs
  ({ r.1 with balance := balance }, r.2.1, r.2.2)


/-- `Account::get_standard_constraints` (env.rs lines 935-937). -/
def Account.getStandardConstraints (_a : Account) : List BVal := []


/-- `Account::get_constraints` (env.rs lines 928-933). -/
def Account.getConstraints (a : Account) : List BVal :=
  if a.constraints.isEmpty then a.getStandardConstraints else a.constraints


/-! ### Transactions (env.rs lines 709-817) -/

/-- `Transaction` (env.rs lines 709-721). -/
structure Transaction where
  id : TxId
  name : String
  caller : BVal
  origin : BVal
  addr : BVal
  gas : BVal
  data : MVal
  callvalue : BVal
  calldataSize : BVal
  constraints : List BVal
deriving DecidableEq, Repr


/-- `Transaction::new` (env.rs lines 724-752). -/
def Transaction.new (memory : SymbolicMemory) (id : TxId) (name : String)
    (gs : GState) : Transaction × SymbolicMemory × GState :=
  let r1 := freshVar gs (name ++ "_caller")
  let r2 := freshVar r1.2 (name ++ "_origin")
  let r3 := freshVar r2.2 (name ++ "_target")
  let r4 := freshVar r3.2 (name ++ "_gas")
  let r5 := freshVar r4.2 (name ++ "_value")
  let r6 := freshVar r5.2 (name ++ "_calldata_size")
  let rd := createNewMemory memory (name ++ "_data") MemoryType.data
    (some r6.1) none
  (⟨id, name, r1.1, r2.1, r3.1, r4.1, rd.1, r5.1, r6.1, []⟩, rd.2, r6.2)


/-- `Transaction::new_outgoing` (env.rs lines 755-782). -/
def Transaction.newOutgoing (memory : SymbolicMemory) (id : TxId)
    (name : String) (caller origin addr gas callvalue calldataSize
    returndataSize : BVal) (gs : GState) :
    Transaction × SymbolicMemory × GState :=
  let r := Transaction.new memory id name gs
  let rret := freshVar r.2.2 (name ++ "_returndata_size")
  ({ r.1 with
      caller := caller
      origin := origin
      addr := addr
      gas := gas
      callvalue := callvalue
      calldataSize := calldataSize
      constraints := [BVal.eql returndataSize rret.1] },
    r.2.1, rret.2)


/-- `Transaction::with_sender_receiver` (env.rs lines 784-802). -/
def Transaction.withSenderReceiver (memory : SymbolicMemory) (id : TxId)
    (name : String) (caller addr : BVal) (gs : GState) :
    Transaction × SymbolicMemory × GState :=
  let r := Transaction.new memory id name gs
  let tx := r.1
  ({ tx with
      constraints :=
        [BVal.lt tx.gas (BVal.const256 MAX_GAS),
         BVal.lt tx.callvalue (BVal.const256 MAX_CALLVAL),
         BVal.lt tx.calldataSize (BVal.const256 MAX_CALLDATA_SIZE)]
      origin := caller
      caller := caller
      addr := addr },
    r.2.1, r.2.2)


/-- `Transaction::get_standard_constraints` (env.rs lines 810-816). -/
def Transaction.getStandardConstraints (tx : Transaction) : List BVal :=
  [BVal.lt tx.gas (BVal.const256 MAX_GAS),
   BVal.lt tx.callvalue (BVal.const256 MAX_CALLVAL),
   BVal.lt tx.calldataSize (BVal.const256 MAX_CALLDATA_SIZE)]


/-- `Transaction::get_constraints` (env.rs lines 804-809). -/
def Transaction.getConstraints (tx : Transaction) : List BVal :=
  if tx.constraints.isEmpty then tx.getStandardConstraints else tx.constraints


/-! ### The environment (env.rs lines 342-707) -/

/-- `PrecompiledContracts` lives outside `env.rs`; only its presence in the
`Env` struct matters here. -/
structure PrecompiledContracts where
  tag : Nat
deriving DecidableEq, Repr


/-- `Env` (env.rs lines 342-366). -/
structure Env where
  blocknumbers : Option (List Nat)
  blocks : List Block
  loadedAccounts : Option (List AccountId)
  precompiledContracts : Option (List PrecompiledContracts)
  blockhashes : Option (List BVal)
  accounts : List (AccountId × Account)
  accCounter : Nat
  addresses : List (BVal × AccountId)
  funcSelector : Option String
  transactions : List (TxId × Transaction)
  txCounter : Nat
  constraints : List BVal
deriving DecidableEq, Repr


/-- A placeholder block used to totalize `latest_block`; the Rust indexing
`blocks[len - 1]` panics on an empty block list, and every constructed
`Env` has at least one block. -/
def dummyBlock : Block :=
  ⟨BVal.var "", BVal.var "", BVal.var "", BVal.var "", BVal.var "",
    BVal.var "", BVal.var "", BVal.var "", BVal.var "", none⟩


/-- `Env::latest_block` (env.rs lines 467-469). -/
def Env.latestBlock (e : Env) : Block :=
  e.blocks.getLastD dummyBlock


/-- `Env::latest_block_mut` followed by a field update, i.e. an in-place
update of the last block (env.rs lines 471-474). -/
def Env.setLatestBlock (e : Env) (f : Block → Block) : Env :=
  { e with blocks := e.blocks.dropLast ++ [f e.latestBlock] }


/-- `Env::new` (env.rs lines 375-417). -/
def Env.new (gs : GState) : Env × GState :=
  let rb := Block.new gs
  let block := rb.1
  let constraints :=
    [BVal.lt block.gasprice (BVal.const256 MAX_GASPRICE),
     BVal.lt block.gasLimit (BVal.const256 GAS_LIMIT),
     BVal.lt block.memSize (BVal.constUsize 100000),
     BVal.lt block.difficulty (BVal.const256 MAX_DIFFICULTY),
     BVal.lt block.number (BVal.const256 MAX_NUMBER),
     BVal.lt block.timestamp (BVal.const256 MAX_TIMESTAMP),
     BVal.eql block.coinbase (BVal.const256 COINBASE),
     BVal.eql block.blockhash (BVal.const256 BLOCKHASH)]
  (⟨none, [block], none, none, none, [], 0, [], none, [], 0, constraints⟩,
    rb.2)


/-- `Env::from_old_env` (env.rs lines 420-465), with every fresh-variable
draw and every random draw in source order: `Block::new` draws nine fresh
variables, then gasprice and mem_size are overwritten and constrained, then
gasprice, mem_size, gas_limit, difficulty, number, timestamp, coinbase and
blockhash are overwritten again, constrained, and the coinbase/blockhash
constraints bind them to freshly generated random constants. -/
def Env.fromOldEnv (oldEnv : Env) (gs : GState) : Env × GState :=
  let rb := Block.new gs
  let env1 := { oldEnv with blocks := oldEnv.blocks ++ [rb.1] }
  let ra1 := freshVar rb.2 "gasprice"
  let env2 := env1.setLatestBlock (fun b => { b with gasprice := ra1.1 })
  let ra2 := freshVar ra1.2 "mem_size"
  let env3 := env2.setLatestBlock (fun b => { b with memSize := ra2.1 })
  let cs1 :=
    [BVal.lt env3.latestBlock.gasprice (BVal.const256 MAX_GASPRICE),
     BVal.lt env3.latestBlock.memSize (BVal.constUsize 100000)]
  let rb1 := freshVar ra2.2 "gasprice"
  let env4 := env3.setLatestBlock (fun b => { b with gasprice := rb1.1 })
  let rb2 := freshVar rb1.2 "mem_size"
  let env5 := env4.setLatestBlock (fun b => { b with memSize := rb2.1 })
  let rb3 := freshVar rb2.2 "gas_limit"
  let env6 := env5.setLatestBlock (fun b => { b with gasLimit := rb3.1 })
  let rb4 := freshVar rb3.2 "difficulty"
  let env7 := env6.setLatestBlock (fun b => { b with difficulty := rb4.1 })
  let rb5 := freshVar rb4.2 "number"
  let env8 := env7.setLatestBlock (fun b => { b with number := rb5.1 })
  let rb6 := freshVar rb5.2 "timestamp"
  let env9 := env8.setLatestBlock (fun b => { b with timestamp := rb6.1 })
  let rb7 := freshVar rb6.2 "coinbase"
  let env10 := env9.setLatestBlock (fun b => { b with coinbase := rb7.1 })
  let rb8 := freshVar rb7.2 "blockhash"
  let env11 := env10.setLatestBlock (fun b => { b with blockhash := rb8.1 })
  let rc1 := generateRandomAddress rb8.2
  let rc2 := generateRandomHash rc1.2
  let cs2 :=
    [BVal.lt env11.latestBlock.gasprice (BVal.const256 MAX_GASPRICE),
     BVal.lt env11.latestBlock.gasLimit (BVal.const256 GAS_LIMIT),
     BVal.lt env11.latestBlock.memSize (BVal.constUsize 100000),
     BVal.lt env11.latestBlock.difficulty (BVal.const256 MAX_DIFFICULTY),
     BVal.lt oldEnv.latestBlock.number env11.latestBlock.number,
     BVal.lt oldEnv.latestBlock.timestamp env11.latestBlock.timestamp,
     BVal.lt env11.latestBlock.number (BVal.const256 MAX_NUMBER),
     BVal.lt env11.latestBlock.timestamp (BVal.const256 MAX_TIMESTAMP),
     BVal.eql env11.latestBlock.coinbase rc1.1,
     BVal.eql env11.latestBlock.blockhash rc2.1]
  ({ env11 with constraints := env11.constraints ++ (cs1 ++ cs2) }, rc2.2)


/-- `Env::new_tx_id` (env.rs lines 503-506). -/
def Env.newTxId (e : Env) : TxId × Env :=
  (⟨e.txCounter + 1⟩, { e with txCounter := e.txCounter + 1 })


/-- `Env::update_env_for_tx` (env.rs lines 528-548).  `get_account_mut`
unwraps, so a missing account is modelled as `none`. -/
def Env.updateEnvForTx (e : Env) (sender receiver : AccountId)
    (tx : Transaction) (txId : TxId) : Option Env :=
  match e.accounts.lookup sender with
  | none => none
  | some fromAcc =>
    let fromAcc' :=
      { fromAcc with
          constraints := fromAcc.constraints ++ [BVal.le tx.callvalue fromAcc.balance]
          balance := BVal.sub fromAcc.balance tx.callvalue }
    let e1 := { e with accounts := alistInsert e.accounts sender fromAcc' }
    match e1.accounts.lookup receiver with
    | none => none
    | some toAcc =>
      let toAcc' := { toAcc with balance := BVal.add toAcc.balance tx.callvalue }
      some { e1 with
              accounts := alistInsert e1.accounts receiver toAcc'
              transactions := alistInsert e1.transactions txId tx }


/-- `Env::new_attacker_tx` (env.rs lines 508-526). -/
def Env.newAttackerTx (e : Env) (memory : SymbolicMemory)
    (attacker victim : AccountId) (gs : GState) :
    Option (TxId × Env × SymbolicMemory × GState) :=
  match e.accounts.lookup attacker with
  | none => none
  | some attackerAcc =>
    match e.accounts.lookup victim with
    | none => none
    | some victimAcc =>
      let attackerAddr := attackerAcc.addr
      let victimAddr := victimAcc.addr
      let rid := e.newTxId
      let rname := freshTxNameG gs "initial"
      let rtx := Transaction.withSenderReceiver memory rid.1 rname.1
        attackerAddr victimAddr rname.2
      match rid.2.updateEnvForTx attacker victim rtx.1 rid.1 with
      | none => none
      | some e' => some (rid.1, e', rtx.2.1, rtx.2.2)


/-- `Env::new_output_tx` (env.rs lines 551-581). -/
def Env.newOutputTx (e : Env) (memory : SymbolicMemory) (name : String)
    (caller : AccountId) (origin : BVal) (addr : AccountId)
    (gas callvalue calldataSize returndataSize : BVal) (gs : GState) :
    Option (TxId × Env × SymbolicMemory × GState) :=
  match e.accounts.lookup caller with
  | none => none
  | some callerAcc =>
    match e.accounts.lookup addr with
    | none => none
    | some addrAcc =>
      let rid := e.newTxId
      let rname := freshTxNameG gs (name ++ "_output")
      let rtx := Transaction.newOutgoing memory rid.1 rname.1 callerAcc.addr
        origin addrAcc.addr gas callvalue calldataSize returndataSize rname.2
      match rid.2.updateEnvForTx caller addr rtx.1 rid.1 with
      | none => none
      | some e' => some (rid.1, e', rtx.2.1, rtx.2.2)


/-- `Env::new_acc_id` (env.rs lines 583-586). -/
def Env.newAccId (e : Env) : AccountId × Env :=
  (⟨e.accCounter + 1⟩, { e with accCounter := e.accCounter + 1 })


/-- `Env::new_hijack_account` (env.rs lines 588-599). -/
def Env.newHijackAccount (e : Env) (memory : SymbolicMemory) (gs : GState) :
    AccountId × Env × SymbolicMemory × GState :=
  let rid := e.newAccId
  let rname := freshAccountNameG gs "hijack"
  let racc := Account.withAddr memory rid.1 rname.1
    (BVal.const256 HIJACK_ADDR) rname.2
  (rid.1,
    { rid.2 with
        accounts := alistInsert rid.2.accounts rid.1 racc.1
        addresses := alistInsert rid.2.addresses (BVal.const256 HIJACK_ADDR) rid.1 },
    racc.2.1, racc.2.2)


/-- `Env::new_attacker_account` (env.rs lines 601-613). -/
def Env.newAttackerAccount (e : Env) (memory : SymbolicMemory) (gs : GState) :
    AccountId × Env × SymbolicMemory × GState :=
  let rid := e.newAccId
  let rname := freshAccountNameG gs "attacker"
  let racc := Account.withAddr memory rid.1 rname.1
    (BVal.const256 ORIGIN) rname.2
  let acc := { racc.1 with initialAttackerBalance := some racc.1.balance }
  (rid.1,
    { rid.2 with
        accounts := alistInsert rid.2.accounts rid.1 acc
        addresses := alistInsert rid.2.addresses (BVal.const256 ORIGIN) rid.1 },
    racc.2.1, racc.2.2)


/-- `Env::new_account` (env.rs lines 631-655); the global coverage map is
not modelled (it is not observed by any claim). -/
def Env.newAccount (e : Env) (memory : SymbolicMemory) (name : String)
    (addr : BVal) (code : Option (List Nat)) (balance : BVal) (gs : GState) :
    AccountId × Env × SymbolicMemory × GState :=
  let rid := e.newAccId
  let rname := freshAccountNameG gs name
  let racc := Account.withAddrCodeBalance memory rid.1 rname.1 addr code
    balance rname.2
  (rid.1,
    { rid.2 with
        accounts := alistInsert rid.2.accounts rid.1 racc.1
        addresses := alistInsert rid.2.addresses addr rid.1 },
    racc.2.1, racc.2.2)


/-- `Env::try_get_account` (env.rs lines 671-673). -/
def Env.tryGetAccount (e : Env) (id : AccountId) : Option Account :=
  e.accounts.lookup id


/-- `Env::get_tx` lookup (env.rs lines 696-698). -/
def Env.tryGetTx (e : Env) (id : TxId) : Option Transaction :=
  e.transactions.lookup id


/-- `get_account_mut` followed by a field update: `none` models the
`unwrap` panic on a missing account. -/
def Env.modifyAccount (e : Env) (id : AccountId) (f : Account → Account) :
    Option Env :=
  match e.accounts.lookup id with
  | none => none
  | some a => some { e with accounts := alistInsert e.accounts id (f a) }


/-! ### YAML input (env.rs lines 105-213) -/

/-- The fragment of `yaml_rust::Yaml` that `from_yaml` consumes.  Indexing a
non-hash or a missing key yields `badValue`, as in `yaml_rust`. -/
inductive Yaml where
  | str (s : String)
  | int (i : Int)
  | hash (entries : List (Yaml × Yaml))
  | badValue


/-- Lookup of a string key in a YAML hash, as `yaml_rust`'s `Index<&str>`
does (a missing key or a non-hash receiver yields `BadValue`). -/
def getEntryStr : List (Yaml × Yaml) → String → Yaml
  | [], _ => Yaml.badValue
  | (Yaml.str k, v) :: rest, key => if k = key then v else getEntryStr rest key
  | _ :: rest, key => getEntryStr rest key


def Yaml.get (y : Yaml) (key : String) : Yaml :=
  match y with
  | .hash es => getEntryStr es key
  | _ => Yaml.badValue


/-- `contains_key(&Yaml::String(..))` on a YAML hash. -/
def containsKeyStr (es : List (Yaml × Yaml)) (key : String) : Bool :=
  match es with
  | [] => false
  | (Yaml.str k, _) :: rest => if k = key then true else containsKeyStr rest key
  | _ :: rest => containsKeyStr rest key


def Yaml.asStr (y : Yaml) : Option String :=
  match y with
  | .str s => some s
  | _ => none


def Yaml.asHash (y : Yaml) : Option (List (Yaml × Yaml)) :=
  match y with
  | .hash es => some es
  | _ => none


def Yaml.isBadvalue (y : Yaml) : Bool :=
  match y with
  | .badValue => true
  | _ => false


/-- Modelled from the spec: a hexadecimal digit value (`hexdecode`
crate). -/
def hexDigitVal (c : Char) : Option Nat :=
  if '0' ≤ c ∧ c ≤ '9' then some (c.toNat - '0'.toNat)
  else if 'a' ≤ c ∧ c ≤ 'f' then some (c.toNat - 'a'.toNat + 10)
  else if 'A' ≤ c ∧ c ≤ 'F' then some (c.toNat - 'A'.toNat + 10)
  else none


/-- Modelled from the spec: hex pairs to bytes (`hexdecode` crate). -/
def hexPairs : List Char → Option (List Nat)
  | [] => some []
  | [_] => none
  | c1 :: c2 :: rest => do
    let hi ← hexDigitVal c1
    let lo ← hexDigitVal c2
    let r ← hexPairs rest
    pure ((16 * hi + lo) :: r)


/-- Modelled from the spec: `hexdecode::decode` of a possibly 0x-prefixed
hex string (spec §6: addresses are 0x-prefixed hex). -/
def hexdecode (s : String) : Option (List Nat) :=
  let cs := s.data
  let cs := if cs.take 2 = ['0', 'x'] then cs.drop 2 else cs
  hexPairs cs


/-- `parse_yaml_value` (env.rs lines 113-125): `none` models the
`unreachable!` panic and the decode `unwrap`. -/
def parseYamlValue (v : Yaml) : Option BVal :=
  match v with
  | .str s => (hexdecode s).map BVal.constVec
  | .int i => some (BVal.constUsize (Int.toNat (i % (2 ^ 64 : Int))))
  | _ => none


/-- Modelled from the spec: `BitVec::as_revm_u256` converts a constant term
to its 256-bit value and fails on anything else (`bval.rs` is absent;
claims only apply it to the `const_vec`/`const_usize` results of
`parse_yaml_value`). -/
def BVal.asRevmU256 : BVal → Option Nat
  | .constVec bs => some (bytesToNat bs % 2 ^ 256)
  | .constUsize n => some (n % 2 ^ 256)
  | _ => none


/-- `SeEnviroment` (env.rs lines 105-111); `from` is a Lean keyword, hence
`from_`. -/
structure SeEnviroment where
  env : Env
  from_ : AccountId
  to_ : AccountId
  memory : SymbolicMemory


/-- The storage loop of `from_yaml` (env.rs lines 166-181): parses each
`(slot, value)` pair, records its concrete `U256` values, and word-writes
it into the account's storage. -/
def processStorage (entries : List (Yaml × Yaml)) (memory : SymbolicMemory)
    (storage : MVal) : Option (List (Nat × Nat) × MVal × SymbolicMemory) :=
  match entries with
  | [] => some ([], storage, memory)
  | (a, v) :: rest => do
    let addr ← parseYamlValue a
    let val ← parseYamlValue v
    let ua ← addr.asRevmU256
    let uv ← val.asRevmU256
    let rw := wordWrite memory storage addr val
    let r ← processStorage rest rw.2 rw.1
    pure ((ua, uv) :: r.1, r.2.1, r.2.2)


/-- The storage parsing of one `from_yaml` entry (env.rs lines 166-181),
performed only when the entry carries code: parse the pairs, word-write
them into the account's storage, and record `initial_storage`. -/
def processEntryStorage (p2 : Yaml) (env1 : Env) (memory1 : SymbolicMemory)
    (id : AccountId) : Option (Env × SymbolicMemory) :=
  if ¬ (p2.get "storage").isBadvalue then do
    let stEntries ← (p2.get "storage").asHash
    let acc ← env1.accounts.lookup id
    let rs ← processStorage stEntries memory1 acc.storage
    let env2 ← env1.modifyAccount id (fun a =>
      { a with storage := rs.2.1, initialStorage := some rs.1 })
    pure (env2, rs.2.2)
  else
    pure (env1, memory1)


/-- The owner-hint parsing of one `from_yaml` entry (env.rs lines
183-188). -/
def processEntryOwner (p2 : Yaml) (env2 : Env) (id : AccountId) :
    Option Env :=
  if ¬ (p2.get "owner").isBadvalue then do
    let index ← parseYamlValue (p2.get "owner")
    env2.modifyAccount id (fun a => { a with owner := some index })
  else
    pure env2


/-- The account-creation part of one `from_yaml` entry (env.rs lines
146-191): with a `code` key the account is created with code and its
storage map and owner hint are processed; without one only the plain
account is created. -/
def processEntryAccount (victimAddr accountAddr accountBalance : BVal)
    (p2 : Yaml) (sHash : List (Yaml × Yaml)) (env0 : Env)
    (memory0 : SymbolicMemory) (gs0 : GState) :
    Option (AccountId × Env × SymbolicMemory × GState) :=
  let name := if accountAddr = victimAddr then "victim" else "other"
  if containsKeyStr sHash "code" then do
    let codeStr ← (p2.get "code").asStr
    let code ← hexdecode codeStr
    let rnew := env0.newAccount memory0 name accountAddr (some code)
      accountBalance gs0
    let r1 ← processEntryStorage p2 rnew.2.1 rnew.2.2.1 rnew.1
    let env3 ← processEntryOwner p2 r1.1 rnew.1
    pure (rnew.1, env3, r1.2, rnew.2.2.2)
  else
    let rnew := env0.newAccount memory0 name accountAddr none
      accountBalance gs0
    pure (rnew.1, rnew.2.1, rnew.2.2.1, rnew.2.2.2)


/-- One iteration of the `from_yaml` state loop (env.rs lines 141-204):
decode the address and balance, create the account (with code, storage and
owner hint when a `code` entry is present, without them otherwise), set the
initial balance, extend `loaded_accounts`, and track the victim id. -/
def processEntry (victimAddr : BVal)
    (st : Env × SymbolicMemory × AccountId × GState) (entry : Yaml × Yaml) :
    Option (Env × SymbolicMemory × AccountId × GState) := do
  let (env0, memory0, victim0, gs0) := st
  let addrStr ← entry.1.asStr
  let bytes ← hexdecode addrStr
  let accountAddr := BVal.constVec bytes
  let accountBalance ← parseYamlValue (entry.2.get "balance")
  let sHash ← entry.2.asHash
  let r ← processEntryAccount victimAddr accountAddr accountBalance entry.2
    sHash env0 memory0 gs0
  let ub ← accountBalance.asRevmU256
  let env5 ← r.2.1.modifyAccount r.1 (fun a =>
    { a with initialBalance := some ub })
  let env6 := { env5 with
    loadedAccounts := some ((env5.loadedAccounts.getD []) ++ [r.1]) }
  let victim1 := if accountAddr = victimAddr then r.1 else victim0
  pure (env6, r.2.2.1, victim1, r.2.2.2)


def processEntries (victimAddr : BVal) :
    List (Yaml × Yaml) → Env × SymbolicMemory × AccountId × GState →
    Option (Env × SymbolicMemory × AccountId × GState)
  | [], st => some st
  | e :: rest, st => do
    let st' ← processEntry victimAddr st e
    processEntries victimAddr rest st'


/-- The initial environment of `from_yaml` (env.rs lines 129-133): a fresh
`Env`, a fresh memory, the attacker account and the hijack account; returns
the attacker id and the resulting environment, memory and state. -/
def initialSeState (gs : GState) :
    AccountId × Env × SymbolicMemory × GState :=
  let renv := Env.new gs
  let ratt := renv.1.newAttackerAccount newMemory renv.2
  let rhij := ratt.2.1.newHijackAccount ratt.2.2.1 ratt.2.2.2
  (ratt.1, rhij.2.1, rhij.2.2.1, rhij.2.2.2)


/-- `SeEnviroment::from_yaml` (env.rs lines 128-213). -/
def SeEnviroment.fromYaml (yaml : Yaml) (gs : GState) :
    Option (SeEnviroment × GState) := do
  let ist := initialSeState gs
  let vs ← (yaml.get "victim").asStr
  let vbytes ← hexdecode vs
  let victimAddr := BVal.constVec vbytes
  let entries ← (yaml.get "state").asHash
  let r ← processEntries victimAddr entries
    (ist.2.1, ist.2.2.1, ⟨0⟩, ist.2.2.2)
  pure ({ env := r.1, from_ := ist.1, to_ := r.2.2.1, memory := r.2.1 },
    r.2.2.2)


/-! ### Conversion into a concrete-validator genesis (env.rs lines 940-973) -/

/-- Modelled from the spec: `genesis::Account` of the `evmexec` crate, whose
constructor `new(balance, code, nonce, storage)` records its four arguments
(the module's source is absent; its constructor calls appear in
evmexec/src/evm.rs). -/
structure GenesisAccount where
  balance : Nat
  code : Option (List Nat)
  nonce : Nat
  storage : Option (List (Nat × Nat))
deriving DecidableEq, Repr


/-- `impl Into<genesis::Account> for Account` (env.rs lines 954-973):
accounts without a recorded initial balance are pre-initialized with
10 ether (10_000_000_000_000_000_000 wei) and nonce 0; the genesis storage
is the `HashMap` collected from `initial_storage` (empty when absent). -/
def Account.intoGenesis (a : Account) : GenesisAccount :=
  let storage : List (Nat × Nat) :=
    match a.initialStorage with
    | some stor => stor.foldl (fun s p => alistInsert s p.1 p.2) []
    | none => []
  { balance := a.initialBalance.getD 10000000000000000000
    code := a.code
    nonce := 0
    storage := some storage }


/-! ### Solver selection (main.rs lines 84-105) -/

/-- The `Solvers` variants that `single_analysis` constructs. -/
inductive Solvers where
  | z3 (count timeout : Nat)
  | boolector (count timeout : Nat)
  | yice (count timeout : Nat)
deriving DecidableEq, Repr


/-- The solver-selection match of `single_analysis` (main.rs lines 84-105):
`none` models the `panic!("Supplied incorrect solver name")` arm; an absent
`--solver` argument selects the `Yice` pool. -/
def selectSolver (arg : Option String) (cores timeout : Nat) : Option Solvers :=
  match arg with
  | some s =>
    if s = "z3" then some (Solvers.z3 cores timeout)
    else if s = "boolector" then some (Solvers.boolector cores timeout)
    else if s = "yice" then some (Solvers.yice cores timeout)
    else none
  | none => some (Solvers.yice cores timeout)


/-- Concrete two-account environment for the C1 witness. -/
def envC1 : Env :=
  ⟨none, [], none, none, none,
    [(⟨1⟩, ⟨⟨1⟩, "a", BVal.var "addrA", BVal.var "balA", 0, [], false, none,
        none, none, none, none, 0, []⟩),
     (⟨2⟩, ⟨⟨2⟩, "b", BVal.var "addrB", BVal.var "balB", 1, [], false, none,
        none, none, none, none, 0, []⟩)],
    2, [], none, [], 0, []⟩


def txC1 : Transaction :=
  ⟨⟨1⟩, "t", BVal.var "c", BVal.var "o", BVal.var "ad", BVal.var "g", 2,
    BVal.var "cv", BVal.var "cs", []⟩


def envC1' : Env :=
  (envC1.updateEnvForTx ⟨1⟩ ⟨2⟩ txC1 ⟨1⟩).getD envC1


/-- Concrete environment and state for the C8 witness. -/
def envC8 : Env :=
  ⟨none, [], none, none, none,
    [(⟨1⟩, ⟨⟨1⟩, "a", BVal.var "addrA", BVal.var "balA", 0, [], false, none,
        none, none, none, none, 0, []⟩),
     (⟨2⟩, ⟨⟨2⟩, "b", BVal.var "addrB", BVal.var "balB", 1, [], false, none,
        none, none, none, none, 0, []⟩)],
    2, [], none, [], 0, []⟩


def gsC8 : GState := ⟨Counter.new, fun _ => [], 0⟩


def resC8 : TxId × Env × SymbolicMemory × GState :=
  (envC8.newAttackerTx [] ⟨1⟩ ⟨2⟩ gsC8).getD (⟨0⟩, envC8, [], gsC8)


/-- Concrete environment and state for the C5 witness. -/
def envC5 : Env :=
  ⟨none, [], none, none, none,
    [(⟨1⟩, ⟨⟨1⟩, "a", BVal.var "addrA", BVal.var "balA", 0, [], false, none,
        none, none, none, none, 0, []⟩),
     (⟨2⟩, ⟨⟨2⟩, "b", BVal.var "addrB", BVal.var "balB", 1, [], false, none,
        none, none, none, none, 0, []⟩)],
    2, [], none, [], 0, []⟩


def gsC5 : GState := ⟨Counter.new, fun _ => [], 0⟩


def resC5 : TxId × Env × SymbolicMemory × GState :=
  (envC5.newAttackerTx [] ⟨1⟩ ⟨2⟩ gsC5).getD (⟨0⟩, envC5, [], gsC5)


def txRes5 : Transaction :=
  (resC5.2.1.tryGetTx resC5.1).getD
    ⟨⟨0⟩, "", BVal.var "", BVal.var "", BVal.var "", BVal.var "", 0,
      BVal.var "", BVal.var "", []⟩


/-! ### Fresh-name issuance (claim C4) -/

/-- The sequence of names produced by consecutive calls of
`fresh_var_name`, one per prefix of the argument list, threading the
process-wide counter. -/
def issueNames (c : Counter) : List String → List String
  | [] => []
  | p :: ps =>
    let r := c.freshVarName p
    r.1 :: issueNames r.2 ps


/-! ### Fresh blocks (claim C2) -/

/-- Current value of the variable counter for a prefix. -/
def vcount (gs : GState) (p : String) : Nat :=
  countOf gs.counter.varCounters p


def gsC3 : GState := ⟨Counter.new, fun _ => [], 0⟩


def envC3 : Env := (Env.new gsC3).1


def gsC3b : GState := (Env.new gsC3).2


/-! ### Per-entry specification vocabulary (claim C6) -/

/-- Parsed view of a YAML storage map: for each `(slot, value)` pair the
symbolic terms written into storage and their concrete 256-bit values. -/
def parsePairs : List (Yaml × Yaml) → Option (List ((BVal × BVal) × (Nat × Nat)))
  | [] => some []
  | (a, v) :: rest => do
    let addr ← parseYamlValue a
    let val ← parseYamlValue v
    let ua ← addr.asRevmU256
    let uv ← val.asRevmU256
    let r ← parsePairs rest
    pure (((addr, val), (ua, uv)) :: r)


/-- The decoded address bytes of a state entry. -/
def entryAddrBytes (p : Yaml × Yaml) : Option (List Nat) :=
  p.1.asStr.bind hexdecode


/-- The decoded address term of a state entry. -/
def entryAddrB (p : Yaml × Yaml) : Option BVal :=
  (entryAddrBytes p).map BVal.constVec


/-- Account-table well-formedness: every key is bounded by the account
counter and every account's storage handle points into the memory
table. -/
def accountsWF (e : Env) (mem : SymbolicMemory) : Prop :=
  ∀ p ∈ e.accounts, p.1.val ≤ e.accCounter ∧ p.2.storage < mem.length


/-- What `from_yaml` produces for one `state` entry `p` stored under
account id `id`: the account exists, carries the decoded address, the
parsed balance (symbolically and as the concrete initial balance), and —
only when the entry has a `code` key — the decoded code together with the
storage writes and owner hint; a codeless entry gets no code, no recorded
storage, no owner hint and no storage writes. -/
def entrySpec (p : Yaml × Yaml) (id : AccountId) (e : Env)
    (mem : SymbolicMemory) : Prop :=
  ∃ bytes bal acc sHash,
    entryAddrBytes p = some bytes ∧
    parseYamlValue (p.2.get "balance") = some bal ∧
    p.2.asHash = some sHash ∧
    e.accounts.lookup id = some acc ∧
    acc.addr = BVal.constVec bytes ∧
    acc.balance = bal ∧
    acc.initialBalance = bal.asRevmU256 ∧
    (containsKeyStr sHash "code" = false →
      acc.code = none ∧ acc.initialStorage = none ∧ acc.owner = none ∧
      chainWrites mem acc.storage = []) ∧
    (containsKeyStr sHash "code" = true →
      (∃ codeBytes, ((p.2.get "code").asStr.bind hexdecode) = some codeBytes ∧
        acc.code = some codeBytes) ∧
      ((p.2.get "storage").isBadvalue = true →
        acc.initialStorage = none ∧ chainWrites mem acc.storage = []) ∧
      ((p.2.get "storage").isBadvalue = false →
        ∃ stEntries ps, (p.2.get "storage").asHash = some stEntries ∧
          parsePairs stEntries = some ps ∧
          acc.initialStorage = some (ps.map (·.2)) ∧
          chainWrites mem acc.storage = ps.map (·.1)) ∧
      ((p.2.get "owner").isBadvalue = false →
        ∃ ov, parseYamlValue (p.2.get "owner") = some ov ∧
          acc.owner = some ov) ∧
      ((p.2.get "owner").isBadvalue = true → acc.owner = none))


/-- Concrete global state for the `from_yaml` examples. -/
def gsC6w : GState := ⟨Counter.new, fun _ => [], 0⟩


/-- A one-entry YAML input whose state entry carries code. -/
def yC6w : Yaml :=
  Yaml.hash [(Yaml.str "victim", Yaml.str "0x01"),
    (Yaml.str "state", Yaml.hash [(Yaml.str "0x01",
      Yaml.hash [(Yaml.str "balance", Yaml.int 5),
        (Yaml.str "code", Yaml.str "0x60")])])]


/-- The state entries of `yC6w`. -/
def entriesC6w : List (Yaml × Yaml) :=
  [(Yaml.str "0x01", Yaml.hash [(Yaml.str "balance", Yaml.int 5),
    (Yaml.str "code", Yaml.str "0x60")])]


/-- The run of `from_yaml` on `yC6w` (it succeeds, so the fallback arm is
never taken). -/
def runC6w : SeEnviroment × GState :=
  match SeEnviroment.fromYaml yC6w gsC6w with
  | some r => r
  | none => (⟨(Env.new gsC6w).1, ⟨0⟩, ⟨0⟩, newMemory⟩, gsC6w)


/-- A one-entry YAML input whose state entry has a non-empty `storage` map
but no `code` key. -/
def yC6c : Yaml :=
  Yaml.hash [(Yaml.str "victim", Yaml.str "0x01"),
    (Yaml.str "state", Yaml.hash [(Yaml.str "0x01",
      Yaml.hash [(Yaml.str "balance", Yaml.int 5),
        (Yaml.str "storage",
          Yaml.hash [(Yaml.str "0x00", Yaml.str "0x07")])])])]


/-- The state entries of `yC6c`. -/
def entriesC6c : List (Yaml × Yaml) :=
  [(Yaml.str "0x01", Yaml.hash [(Yaml.str "balance", Yaml.int 5),
    (Yaml.str "storage", Yaml.hash [(Yaml.str "0x00", Yaml.str "0x07")])])]


/-- The run of `from_yaml` on `yC6c`. -/
def runC6c : SeEnviroment × GState :=
  match SeEnviroment.fromYaml yC6c gsC6w with
  | some r => r
  | none => (⟨(Env.new gsC6w).1, ⟨0⟩, ⟨0⟩, newMemory⟩, gsC6w)


theorem decChars_ne_nil (n : Nat) : decChars n ≠ [] := by
  unfold decChars
  split
  · simp
  · simp


theorem decChars_small {n : Nat} (h : n < 10) : decChars n = [Nat.digitChar n] := by
  unfold decChars
  simp [h]


theorem decChars_large {n : Nat} (h : ¬ n < 10) :
    decChars n = decChars (n / 10) ++ [Nat.digitChar (n % 10)] := by
  conv_lhs => unfold decChars
  simp [h]


theorem toDigitsCore_eq_decChars :
    ∀ (fuel n : Nat) (ds : List Char), n < fuel →
      Nat.toDigitsCore 10 fuel n ds = decChars n ++ ds := by
  intro fuel
  induction fuel with
  | zero => intro n ds h; omega
  | succ f ih =>
    intro n ds h
    show (if n / 10 = 0 then Nat.digitChar (n % 10) :: ds
          else Nat.toDigitsCore 10 f (n / 10) (Nat.digitChar (n % 10) :: ds))
        = decChars n ++ ds
    by_cases hn : n < 10
    · have hdiv : n / 10 = 0 := Nat.div_eq_of_lt hn
      have hmod : n % 10 = n := Nat.mod_eq_of_lt hn
      simp [hdiv, hmod, decChars_small hn]
    · have hge : 10 ≤ n := by omega
      have hdiv : ¬ n / 10 = 0 := by
        have : 1 ≤ n / 10 := (Nat.le_div_iff_mul_le (by omega)).mpr (by omega)
        omega
      have hlt : n / 10 < f := by
        have h1 : n / 10 < n := Nat.div_lt_self (by omega) (by omega)
        omega
      rw [if_neg hdiv, ih (n / 10) (Nat.digitChar (n % 10) :: ds) hlt,
        decChars_large hn, List.append_assoc]
      rfl


theorem repr_eq_decChars (n : Nat) : Nat.repr n = (decChars n).asString := by
  show (Nat.toDigits 10 n).asString = (decChars n).asString
  rw [Nat.toDigits, toDigitsCore_eq_decChars (n + 1) n [] (Nat.lt_succ_self n),
    List.append_nil]


theorem digitChar_inj_lt {m n : Nat} (hm : m < 10) (hn : n < 10)
    (h : Nat.digitChar m = Nat.digitChar n) : m = n := by
  have : ∀ a b : Fin 10, Nat.digitChar a.val = Nat.digitChar b.val → a = b := by decide
  have := this ⟨m, hm⟩ ⟨n, hn⟩ h
  exact congrArg Fin.val this


theorem decChars_inj : ∀ m n : Nat, decChars m = decChars n → m = n := by
  intro m
  induction m using Nat.strong_induction_on with
  | _ m ih =>
    intro n h
    by_cases hm : m < 10
    · by_cases hn : n < 10
      · rw [decChars_small hm, decChars_small hn] at h
        exact digitChar_inj_lt hm hn (List.cons.injEq .. ▸ h).1
      · rw [decChars_small hm, decChars_large hn] at h
        have hlen := congrArg List.length h
        have hne := decChars_ne_nil (n / 10)
        simp at hlen
        cases hq : decChars (n / 10) with
        | nil => exact absurd hq hne
        | cons a l => rw [hq] at hlen; simp at hlen
    · by_cases hn : n < 10
      · rw [decChars_large hm, decChars_small hn] at h
        have hlen := congrArg List.length h
        have hne := decChars_ne_nil (m / 10)
        simp at hlen
        cases hq : decChars (m / 10) with
        | nil => exact absurd hq hne
        | cons a l => rw [hq] at hlen; simp at hlen
      · rw [decChars_large hm, decChars_large hn] at h
        have hpair := List.append_inj' h (by simp)
        have h1 : m / 10 = n / 10 :=
          ih (m / 10) (Nat.div_lt_self (by omega) (by omega)) _ hpair.1
        have h2 : m % 10 = n % 10 :=
          digitChar_inj_lt (Nat.mod_lt _ (by omega)) (Nat.mod_lt _ (by omega))
            (List.cons.injEq .. ▸ hpair.2).1
        omega


theorem natRepr_inj {m n : Nat} (h : Nat.repr m = Nat.repr n) : m = n := by
  rw [repr_eq_decChars, repr_eq_decChars] at h
  refine decChars_inj m n ?_
  have := congrArg String.data h
  simpa [List.asString] using this


/-- Cancellation for string concatenation: appending equal suffixes to distinct
strings yields distinct strings, stated through the data lists. -/
theorem stringAppend_cancel_left {p a b : String}
    (h : p ++ a = p ++ b) : a = b := by
  have hd := congrArg String.data h
  simp only [String.data_append] at hd
  exact String.ext (List.append_cancel_left hd)


theorem underscoreRepr_inj {p : String} {m n : Nat}
    (h : p ++ "_" ++ Nat.repr m = p ++ "_" ++ Nat.repr n) : m = n := by
  exact natRepr_inj (stringAppend_cancel_left h)


theorem lookup_alistInsert_self {K V : Type} [DecidableEq K]
    (l : List (K × V)) (k : K) (v : V) :
    (alistInsert l k v).lookup k = some v := by
  induction l with
  | nil => simp [alistInsert, List.lookup]
  | cons hd tl ih =>
    obtain ⟨k', v'⟩ := hd
    by_cases h : k' = k
    · subst h
      simp [alistInsert, List.lookup]
    · simp only [alistInsert, if_neg h, List.lookup]
      have : (k == k') = false := by
        simp [beq_iff_eq]
        intro hc; exact h hc.symm
      simp [this, ih]


theorem lookup_alistInsert_other {K V : Type} [DecidableEq K]
    (l : List (K × V)) (k k₀ : K) (v : V) (hne : k₀ ≠ k) :
    (alistInsert l k v).lookup k₀ = l.lookup k₀ := by
  induction l with
  | nil =>
    simp only [alistInsert, List.lookup]
    have : (k₀ == k) = false := by simp [beq_iff_eq]; exact hne
    simp [this]
  | cons hd tl ih =>
    obtain ⟨k', v'⟩ := hd
    by_cases h : k' = k
    · subst h
      simp only [alistInsert, if_pos rfl, List.lookup]
      have : (k₀ == k') = false := by simp [beq_iff_eq]; exact hne
      simp [this]
    · simp only [alistInsert, if_neg h, List.lookup]
      by_cases hk : k₀ = k'
      · subst hk; simp
      · have : (k₀ == k') = false := by simp [beq_iff_eq]; exact hk
        simp [this, ih]


theorem evalW_lt (ρ σ : String → Nat) (v : BVal) : v.evalW ρ σ < 2 ^ 256 := by
  cases v <;> simp [BVal.evalW] <;>
    first
      | exact Nat.mod_lt _ (by positivity)
      | (split <;> omega)


theorem bumpCount_fst (l : List (String × Nat)) (name : String) :
    (bumpCount l name).1 = countOf l name + 1 := by
  induction l with
  | nil => simp [bumpCount, countOf, List.lookup]
  | cons hd tl ih =>
    obtain ⟨k, v⟩ := hd
    by_cases h : k = name
    · subst h; simp [bumpCount, countOf, List.lookup]
    · have hbeq : (name == k) = false := by
        simp [beq_iff_eq]; intro hc; exact h hc.symm
      simp [bumpCount, if_neg h, countOf, List.lookup, hbeq] at ih ⊢
      exact ih


theorem countOf_bumpCount (l : List (String × Nat)) (name other : String) :
    countOf (bumpCount l name).2 other =
      if other = name then countOf l name + 1 else countOf l other := by
  induction l with
  | nil =>
    by_cases h : other = name
    · subst h; simp [bumpCount, countOf, List.lookup]
    · have hbeq : (other == name) = false := by simp [beq_iff_eq]; exact h
      simp [bumpCount, countOf, List.lookup, hbeq, h]
  | cons hd tl ih =>
    obtain ⟨k, v⟩ := hd
    by_cases h : k = name
    · subst h
      by_cases ho : other = k
      · subst ho; simp [bumpCount, countOf, List.lookup]
      · have hbeq : (other == k) = false := by simp [beq_iff_eq]; exact ho
        simp [bumpCount, countOf, List.lookup, hbeq, ho]
    · have hnk : (name == k) = false := by
        simp [beq_iff_eq]; intro hc; exact h hc.symm
      by_cases ho : other = k
      · subst ho
        simp [bumpCount, if_neg h, countOf, List.lookup, h]
      · have hbeq : (other == k) = false := by simp [beq_iff_eq]; exact ho
        simp only [bumpCount, if_neg h, countOf, List.lookup, hbeq, hnk] at ih ⊢
        exact ih


/-! ### Auxiliary lemmas for the claim theorems -/

theorem lookup_foldl_alistInsert_notmem {K V : Type} [DecidableEq K]
    (l : List (K × V)) (s : List (K × V)) (k : K)
    (h : ∀ p ∈ l, p.1 ≠ k) :
    (l.foldl (fun acc p => alistInsert acc p.1 p.2) s).lookup k = s.lookup k := by
  induction l generalizing s with
  | nil => rfl
  | cons hd tl ih =>
    simp only [List.foldl_cons]
    rw [ih _ (fun p hp => h p (List.mem_cons_of_mem hd hp)),
      lookup_alistInsert_other _ _ _ _ (fun hc => h hd (List.mem_cons_self hd tl) hc.symm)]


theorem lookup_foldl_alistInsert_mem {K V : Type} [DecidableEq K]
    (l : List (K × V)) (s : List (K × V)) (k : K) (v : V)
    (hmem : (k, v) ∈ l) (hdist : l.Pairwise (fun p q => p.1 ≠ q.1)) :
    (l.foldl (fun acc p => alistInsert acc p.1 p.2) s).lookup k = some v := by
  induction l generalizing s with
  | nil => cases hmem
  | cons hd tl ih =>
    simp only [List.foldl_cons]
    rcases List.mem_cons.mp hmem with heq | htl
    · subst heq
      have hnot : ∀ p ∈ tl, p.1 ≠ k := by
        intro p hp hc
        exact ((List.pairwise_cons.mp hdist).1 p hp) hc.symm
      rw [lookup_foldl_alistInsert_notmem tl _ k hnot, lookup_alistInsert_self]
    · exact ih _ htl (List.pairwise_cons.mp hdist).2


theorem mem_of_lookup {K V : Type} [BEq K] [LawfulBEq K]
    {l : List (K × V)} {k : K} {b : V} (h : l.lookup k = some b) : (k, b) ∈ l := by
  obtain ⟨l₁, l₂, rfl, -⟩ := List.lookup_eq_some_iff.mp h
  simp


/-! ### Claim theorems -/

/-- C10: `Account::get_code_byte` returns `None` for every offset when the
account has no code (`some none`: a normal return of `None`); when the
account has code `b` it returns `Some` of the byte at `offset` under the
precondition `offset < b.length`, and the underlying indexing `b[offset]`
panics (modelled as the outer `none`) for `offset ≥ b.length`, even though
the return type is `Option`. -/
theorem getCodeByte_spec (a : Account) (offset : Nat) :
    (a.code = none → a.getCodeByte offset = some none) ∧
    (∀ b, a.code = some b →
      (∀ h : offset < b.length,
        a.getCodeByte offset = some (some (b.get ⟨offset, h⟩))) ∧
      (b.length ≤ offset → a.getCodeByte offset = none)) := by
  constructor
  · intro h
    simp [Account.getCodeByte, h]
  · intro b hb
    constructor
    · intro h
      simp [Account.getCodeByte, hb, h]
    · intro h
      simp [Account.getCodeByte, hb]
      omega


/-- Witness for C10 at a concrete account with code `[0x60, 0x80]`. -/
theorem getCodeByte_spec_witness :
    (⟨⟨9⟩, "victim_1", BVal.var "a", BVal.var "b", 0, [], false, none, none,
        none, none, some [96, 128], 2, []⟩ : Account).getCodeByte 1 =
      some (some 128) ∧
    (⟨⟨9⟩, "victim_1", BVal.var "a", BVal.var "b", 0, [], false, none, none,
        none, none, some [96, 128], 2, []⟩ : Account).getCodeByte 2 = none := by
  refine ⟨?_, ?_⟩
  · exact (((getCodeByte_spec _ 1).2 [96, 128] rfl).1 (by decide))
  · exact (((getCodeByte_spec _ 2).2 [96, 128] rfl).2 (by decide))


/-- C9: converting an `Account` into a concrete-validator genesis account
gives balance 10_000_000_000_000_000_000 wei (10 ether) and nonce 0 when no
initial balance is recorded, the recorded balance otherwise; the genesis
storage is the map of the recorded `initial_storage` pairs (the empty map
when `initial_storage` is `None`): every recorded pair is retrievable (for
pairwise-distinct slots), and unrecorded slots are absent. -/
theorem intoGenesis_spec (a : Account) :
    (a.initialBalance = none →
      a.intoGenesis.balance = 10000000000000000000) ∧
    (∀ b, a.initialBalance = some b → a.intoGenesis.balance = b) ∧
    a.intoGenesis.nonce = 0 ∧
    a.intoGenesis.code = a.code ∧
    (a.initialStorage = none → a.intoGenesis.storage = some []) ∧
    (∀ l, a.initialStorage = some l →
      ∃ m, a.intoGenesis.storage = some m ∧
        (l.Pairwise (fun p q => p.1 ≠ q.1) →
          ∀ p ∈ l, m.lookup p.1 = some p.2) ∧
        (∀ k, (∀ p ∈ l, p.1 ≠ k) → m.lookup k = none)) := by
  refine ⟨?_, ?_, ?_, ?_, ?_, ?_⟩
  · intro h; simp [Account.intoGenesis, h]
  · intro b h; simp [Account.intoGenesis, h]
  · rfl
  · rfl
  · intro h; simp [Account.intoGenesis, h]
  · intro l h
    refine ⟨l.foldl (fun s p => alistInsert s p.1 p.2) [], ?_, ?_, ?_⟩
    · simp [Account.intoGenesis, h]
    · intro hdist p hp
      exact lookup_foldl_alistInsert_mem l [] p.1 p.2 hp hdist
    · intro k hk
      rw [lookup_foldl_alistInsert_notmem l [] k hk]
      rfl


/-- Witness for C9 at a concrete account with a recorded balance and one
storage pair. -/
theorem intoGenesis_spec_witness :
    (⟨⟨2⟩, "other_1", BVal.var "a", BVal.var "b", 0, [], false, none,
        some [(0, 77)], some 5, none, none, 0, []⟩ : Account).intoGenesis =
      ⟨5, none, 0, some [(0, 77)]⟩ := by
  have h := intoGenesis_spec
    (⟨⟨2⟩, "other_1", BVal.var "a", BVal.var "b", 0, [], false, none,
        some [(0, 77)], some 5, none, none, 0, []⟩ : Account)
  have hb := h.2.1 5 rfl
  rfl


/-- C7: the solver-selection match of `single_analysis` accepts `z3`,
`boolector` and the (undocumented) `yice`, defaults to the Yices2 pool when
`--solver` is absent, but panics on the documented value `yices2`: the CLI
help text and the spec promise `--solver yices2` selects the Yices2
backend, while the match arm reads `"yice"`. -/
theorem selectSolver_spec (cores timeout : Nat) :
    selectSolver (some "yices2") cores timeout = none ∧
    selectSolver (some "z3") cores timeout = some (Solvers.z3 cores timeout) ∧
    selectSolver (some "boolector") cores timeout =
      some (Solvers.boolector cores timeout) ∧
    selectSolver (some "yice") cores timeout =
      some (Solvers.yice cores timeout) ∧
    selectSolver none cores timeout = some (Solvers.yice cores timeout) :=
  ⟨rfl, rfl, rfl, rfl, rfl⟩


theorem sub_add_mod_cancel {b c M : Nat} (hb : b < M) (hc : c ≤ M) :
    ((b + M - c) % M + c) % M = b := by
  calc ((b + M - c) % M + c) % M
      = ((b + M - c) + c) % M := by rw [Nat.mod_add_mod]
    _ = (b + M) % M := by rw [Nat.sub_add_cancel (by omega)]
    _ = b % M := by rw [Nat.add_mod_right]
    _ = b := Nat.mod_eq_of_lt hb


/-- C1: for distinct sender and receiver, `update_env_for_tx` (the shared
helper of `new_attacker_tx` and `new_output_tx`) rebinds the sender's
balance to `old_sender.balance - tx.callvalue`, appends the constraint
`tx.callvalue ≤ old_sender.balance` to the sender's constraint list,
rebinds the receiver's balance to `old_receiver.balance + tx.callvalue`,
and, in 256-bit word semantics, the new sender balance plus the callvalue
equals the old sender balance. -/
theorem updateEnvForTx_balances (e : Env) (sender receiver : AccountId)
    (tx : Transaction) (txId : TxId) (fa ta : Account) (e' : Env)
    (hne : sender ≠ receiver)
    (hfa : e.accounts.lookup sender = some fa)
    (hta : e.accounts.lookup receiver = some ta)
    (hup : e.updateEnvForTx sender receiver tx txId = some e') :
    e'.accounts.lookup sender =
      some { fa with
              balance := BVal.sub fa.balance tx.callvalue
              constraints := fa.constraints ++ [BVal.le tx.callvalue fa.balance] } ∧
    e'.accounts.lookup receiver =
      some { ta with balance := BVal.add ta.balance tx.callvalue } ∧
    (∀ ρ σ : String → Nat, ∀ fa', e'.accounts.lookup sender = some fa' →
      (fa'.balance.evalW ρ σ + tx.callvalue.evalW ρ σ) % 2 ^ 256 =
        fa.balance.evalW ρ σ) := by
  have hrs : receiver ≠ sender := fun hc => hne hc.symm
  simp only [Env.updateEnvForTx, hfa] at hup
  rw [lookup_alistInsert_other _ _ _ _ hrs, hta] at hup
  have he' :
      e'.accounts =
        alistInsert
          (alistInsert e.accounts sender
            { fa with
                constraints := fa.constraints ++ [BVal.le tx.callvalue fa.balance]
                balance := BVal.sub fa.balance tx.callvalue })
          receiver { ta with balance := BVal.add ta.balance tx.callvalue } := by
    cases hup
    rfl
  have hs : e'.accounts.lookup sender =
      some { fa with
              balance := BVal.sub fa.balance tx.callvalue
              constraints := fa.constraints ++ [BVal.le tx.callvalue fa.balance] } := by
    rw [he', lookup_alistInsert_other _ _ _ _ hne, lookup_alistInsert_self]
  refine ⟨hs, ?_, ?_⟩
  · rw [he', lookup_alistInsert_self]
  · intro ρ σ fa' hfa'
    rw [hs] at hfa'
    cases hfa'
    show ((BVal.sub fa.balance tx.callvalue).evalW ρ σ +
      tx.callvalue.evalW ρ σ) % 2 ^ 256 = fa.balance.evalW ρ σ
    simp only [BVal.evalW]
    exact sub_add_mod_cancel (evalW_lt ρ σ fa.balance)
      (Nat.le_of_lt (evalW_lt ρ σ tx.callvalue))


/-- C8: `new_attacker_tx` (via the shared helper `update_env_for_tx`)
changes only the sender's balance and constraint list, the receiver's
balance, the transaction counter and the transaction map — into which
exactly one transaction is inserted under the fresh id
`tx_counter + 1`, fresh in that it is unbound in the old map whenever all
existing ids are bounded by the counter; every other account and all
remaining `Env` fields (address map, block list, global constraints,
account counter, blocknumbers, loaded accounts, precompiled contracts,
blockhashes, function selector) are unchanged. -/
theorem newAttackerTx_frame (e : Env) (memory : SymbolicMemory)
    (attacker victim : AccountId) (gs : GState) (txId : TxId) (e' : Env)
    (mem' : SymbolicMemory) (gs' : GState)
    (hne : attacker ≠ victim)
    (hrun : e.newAttackerTx memory attacker victim gs =
      some (txId, e', mem', gs')) :
    e'.blocks = e.blocks ∧
    e'.addresses = e.addresses ∧
    e'.constraints = e.constraints ∧
    e'.accCounter = e.accCounter ∧
    e'.blocknumbers = e.blocknumbers ∧
    e'.loadedAccounts = e.loadedAccounts ∧
    e'.precompiledContracts = e.precompiledContracts ∧
    e'.blockhashes = e.blockhashes ∧
    e'.funcSelector = e.funcSelector ∧
    (∀ id, id ≠ attacker → id ≠ victim →
      e'.accounts.lookup id = e.accounts.lookup id) ∧
    (∀ fa, e.accounts.lookup attacker = some fa →
      ∃ fa', e'.accounts.lookup attacker = some fa' ∧
        fa' = { fa with balance := fa'.balance, constraints := fa'.constraints }) ∧
    (∀ ta, e.accounts.lookup victim = some ta →
      ∃ ta', e'.accounts.lookup victim = some ta' ∧
        ta' = { ta with balance := ta'.balance }) ∧
    txId = ⟨e.txCounter + 1⟩ ∧
    e'.txCounter = e.txCounter + 1 ∧
    (∃ tx, e'.transactions = alistInsert e.transactions txId tx) ∧
    ((∀ p ∈ e.transactions, p.1.val ≤ e.txCounter) →
      e.transactions.lookup txId = none) := by
  cases hA : e.accounts.lookup attacker with
  | none =>
    rw [Env.newAttackerTx, hA] at hrun
    cases hrun
  | some fa =>
    cases hV : e.accounts.lookup victim with
    | none =>
      rw [Env.newAttackerTx, hA, hV] at hrun
      cases hrun
    | some ta =>
      rw [Env.newAttackerTx, hA, hV] at hrun
      simp only [Env.newTxId, Env.updateEnvForTx, hA] at hrun
      rw [lookup_alistInsert_other _ _ _ _ (fun hc => hne hc.symm), hV] at hrun
      simp only [Option.some.injEq, Prod.mk.injEq] at hrun
      obtain ⟨htx, he', hmem, hgs⟩ := hrun
      subst htx hmem hgs
      cases he'
      refine ⟨rfl, rfl, rfl, rfl, rfl, rfl, rfl, rfl, rfl, ?_, ?_, ?_, rfl, rfl,
        ⟨_, rfl⟩, ?_⟩
      · intro id hia hiv
        dsimp only
        rw [lookup_alistInsert_other _ _ _ _ hiv,
          lookup_alistInsert_other _ _ _ _ hia]
      · intro fa₀ hfa₀
        cases hfa₀
        apply Exists.intro
        constructor
        · dsimp only
          rw [lookup_alistInsert_other _ _ _ _ hne, lookup_alistInsert_self]
        · rfl
      · intro ta₀ hta₀
        cases hta₀
        apply Exists.intro
        constructor
        · dsimp only
          rw [lookup_alistInsert_self]
        · rfl
      · intro hbound
        cases hq : e.transactions.lookup (⟨e.txCounter + 1⟩ : TxId) with
        | none => rfl
        | some tx₀ =>
          have := hbound _ (mem_of_lookup hq)
          simp at this


/-- Witness for C1 at a concrete two-account environment. -/
theorem updateEnvForTx_balances_witness :
    envC1.updateEnvForTx ⟨1⟩ ⟨2⟩ txC1 ⟨1⟩ = some envC1' ∧
    envC1'.accounts.lookup ⟨1⟩ =
      some ⟨⟨1⟩, "a", BVal.var "addrA",
        BVal.sub (BVal.var "balA") (BVal.var "cv"), 0, [], false, none, none,
        none, none, none, 0, [BVal.le (BVal.var "cv") (BVal.var "balA")]⟩ ∧
    envC1'.accounts.lookup ⟨2⟩ =
      some ⟨⟨2⟩, "b", BVal.var "addrB",
        BVal.add (BVal.var "balB") (BVal.var "cv"), 1, [], false, none, none,
        none, none, none, 0, []⟩ := by
  have h := updateEnvForTx_balances envC1 ⟨1⟩ ⟨2⟩ txC1 ⟨1⟩
    ⟨⟨1⟩, "a", BVal.var "addrA", BVal.var "balA", 0, [], false, none,
      none, none, none, none, 0, []⟩
    ⟨⟨2⟩, "b", BVal.var "addrB", BVal.var "balB", 1, [], false, none,
      none, none, none, none, 0, []⟩
    envC1' (by decide) rfl rfl rfl
  exact ⟨rfl, h.1, h.2.1⟩


/-- Witness for C8 at a concrete two-account environment. -/
theorem newAttackerTx_frame_witness :
    resC8.2.1.txCounter = envC8.txCounter + 1 ∧
    resC8.2.1.addresses = envC8.addresses ∧
    resC8.2.1.blocks = envC8.blocks ∧
    resC8.2.1.constraints = envC8.constraints ∧
    envC8.transactions.lookup resC8.1 = none := by
  have h := newAttackerTx_frame envC8 [] ⟨1⟩ ⟨2⟩ gsC8 resC8.1 resC8.2.1
    resC8.2.2.1 resC8.2.2.2 (by decide) rfl
  obtain ⟨h1, h2, h3, h4, h5, h6, h7, h8, h9, h10, h11, h12, h13, h14, h15,
    h16⟩ := h
  exact ⟨h14, h2, h1, h3, h13 ▸ h16 (by intro p hp; simp [envC8] at hp)⟩


theorem tryGetTx_of_insert (e' : Env) (tr : List (TxId × Transaction))
    (tx : Transaction) (txId : TxId)
    (h : e'.transactions = alistInsert tr txId tx) :
    e'.tryGetTx txId = some tx := by
  rw [Env.tryGetTx, h, lookup_alistInsert_self]


/-- C5: the transaction created by `new_attacker_tx` carries the coarse gas
bound `gas < MAX_GAS` among its constraints (together with the bounds on
callvalue and calldata size), and a transaction with an empty constraint
list produces exactly the same three bounds as its standard
constraints. -/
theorem newAttackerTx_gas_bound (e : Env) (memory : SymbolicMemory)
    (attacker victim : AccountId) (gs : GState) (txId : TxId) (e' : Env)
    (mem' : SymbolicMemory) (gs' : GState)
    (hrun : e.newAttackerTx memory attacker victim gs =
      some (txId, e', mem', gs')) :
    (∃ tx, e'.tryGetTx txId = some tx ∧
      BVal.lt tx.gas (BVal.const256 MAX_GAS) ∈ tx.constraints ∧
      BVal.lt tx.callvalue (BVal.const256 MAX_CALLVAL) ∈ tx.constraints ∧
      BVal.lt tx.calldataSize (BVal.const256 MAX_CALLDATA_SIZE) ∈
        tx.constraints) ∧
    (∀ tx : Transaction, tx.constraints = [] →
      tx.getConstraints = tx.getStandardConstraints ∧
      tx.getStandardConstraints =
        [BVal.lt tx.gas (BVal.const256 MAX_GAS),
         BVal.lt tx.callvalue (BVal.const256 MAX_CALLVAL),
         BVal.lt tx.calldataSize (BVal.const256 MAX_CALLDATA_SIZE)]) := by
  refine ⟨?_, ?_⟩
  · rw [Env.newAttackerTx] at hrun
    split at hrun
    next => cases hrun
    next fa hA =>
      split at hrun
      next => cases hrun
      next ta hV =>
        simp only [Env.newTxId, Env.updateEnvForTx, hA] at hrun
        by_cases hva : victim = attacker
        · subst hva
          rw [lookup_alistInsert_self] at hrun
          simp only [Option.some.injEq, Prod.mk.injEq] at hrun
          obtain ⟨htx, he', hmem, hgs⟩ := hrun
          subst htx hmem hgs
          cases he'
          refine ⟨_, tryGetTx_of_insert _ _ _ _ rfl, ?_, ?_, ?_⟩ <;>
            simp [Transaction.withSenderReceiver]
        · rw [lookup_alistInsert_other _ _ _ _ hva, hV] at hrun
          simp only [Option.some.injEq, Prod.mk.injEq] at hrun
          obtain ⟨htx, he', hmem, hgs⟩ := hrun
          subst htx hmem hgs
          cases he'
          refine ⟨_, tryGetTx_of_insert _ _ _ _ rfl, ?_, ?_, ?_⟩ <;>
            simp [Transaction.withSenderReceiver]
  · intro tx h
    refine ⟨?_, rfl⟩
    simp [Transaction.getConstraints, h]


/-- Witness for C5 at a concrete two-account environment. -/
theorem newAttackerTx_gas_bound_witness :
    BVal.lt txRes5.gas (BVal.const256 MAX_GAS) ∈ txRes5.constraints ∧
    BVal.lt txRes5.callvalue (BVal.const256 MAX_CALLVAL) ∈
      txRes5.constraints ∧
    BVal.lt txRes5.calldataSize (BVal.const256 MAX_CALLDATA_SIZE) ∈
      txRes5.constraints := by
  have h := newAttackerTx_gas_bound envC5 [] ⟨1⟩ ⟨2⟩ gsC5 resC5.1 resC5.2.1
    resC5.2.2.1 resC5.2.2.2 rfl
  obtain ⟨⟨tx, htx, h1, h2, h3⟩, h4⟩ := h
  have heq : txRes5 = tx := by
    rw [txRes5, htx]
    rfl
  rw [heq]
  exact ⟨h1, h2, h3⟩


theorem issueNames_length (c : Counter) (ps : List String) :
    (issueNames c ps).length = ps.length := by
  induction ps generalizing c with
  | nil => rfl
  | cons p rest ih => simp [issueNames, ih]


theorem issueNames_getD :
    ∀ (ps : List String) (c : Counter) (i : Nat), i < ps.length →
      (issueNames c ps).getD i "" =
        (ps.getD i "") ++ "_" ++
          Nat.repr (countOf c.varCounters (ps.getD i "") +
            (ps.take (i + 1)).count (ps.getD i "")) := by
  intro ps
  induction ps with
  | nil => intro c i h; simp at h
  | cons p rest ih =>
    intro c i h
    cases i with
    | zero =>
      simp only [issueNames, Counter.freshVarName, List.getD_cons_zero,
        List.take_succ_cons, List.take_zero, List.count_cons,
        List.count_nil, bumpCount_fst]
      have hp : (p == p) = true := by simp
      simp [hp]
    | succ i =>
      have hlen : i < rest.length := by simpa using h
      simp only [issueNames, List.getD_cons_succ, List.take_succ_cons,
        List.count_cons]
      rw [ih _ i hlen]
      have hcnt :
          countOf (c.freshVarName p).2.varCounters (rest.getD i "") =
            if rest.getD i "" = p then
              countOf c.varCounters p + 1
            else countOf c.varCounters (rest.getD i "") := by
        simp only [Counter.freshVarName]
        exact countOf_bumpCount c.varCounters p (rest.getD i "")
      by_cases hq : rest.getD i "" = p
      · rw [hcnt, if_pos hq, hq]
        have harith :
            countOf c.varCounters p + 1 + (rest.take (i + 1)).count p =
              countOf c.varCounters p + ((rest.take (i + 1)).count p + 1) := by
          omega
        rw [harith]
        simp
      · rw [hcnt, if_neg hq]
        have hq' : ¬ p = rest.getD i "" := fun hc => hq hc.symm
        simp only [List.getD_eq_getElem?_getD] at hq' ⊢
        simp [hq']


/-- C4: starting from the fresh process-wide counter, the `n`-th call of
`fresh_var_name` with prefix `p` returns the string `p` followed by `"_"`
followed by the decimal representation of `n` (where `n` counts the calls
with prefix `p` so far), and any two distinct calls with the same prefix
return distinct strings. -/
theorem freshVarName_distinct (ps : List String) (i j : Nat)
    (hi : i < ps.length) (hj : j < ps.length) :
    (issueNames Counter.new ps).getD i "" =
      (ps.getD i "") ++ "_" ++
        Nat.repr ((ps.take (i + 1)).count (ps.getD i "")) ∧
    (i < j → ps.getD i "" = ps.getD j "" →
      (issueNames Counter.new ps).getD i "" ≠
        (issueNames Counter.new ps).getD j "") := by
  have hzero : ∀ q, countOf (Counter.new).varCounters q = 0 := by
    intro q
    rfl
  constructor
  · rw [issueNames_getD ps Counter.new i hi, hzero, Nat.zero_add]
  · intro hij heq
    rw [issueNames_getD ps Counter.new i hi,
      issueNames_getD ps Counter.new j hj, hzero, hzero, heq]
    simp only [Nat.zero_add]
    intro hcon
    have hrep := underscoreRepr_inj hcon
    have hcount :
        (ps.take (i + 1)).count (ps.getD j "") <
          (ps.take (j + 1)).count (ps.getD j "") := by
      have hgj : ps[j] = ps.getD j "" := (List.getD_eq_getElem ps "" hj).symm
      have hsucc : (ps.take (j + 1)).count (ps.getD j "") =
          (ps.take j).count (ps.getD j "") + 1 := by
        rw [List.take_succ, List.count_append, List.getElem?_eq_getElem hj,
          hgj]
        simp
      have hpre : ps.take (i + 1) <+: ps.take j := by
        have h0 := List.take_prefix (i + 1) (ps.take j)
        rwa [List.take_take, Nat.min_eq_left (by omega)] at h0
      have hle := List.Sublist.count_le hpre.sublist (ps.getD j "")
      omega
    omega


/-- Witness for C4: the call sequence with prefixes `x, y, x` issues
`x_1` first and a different name (`x_2`) for the second `x` call. -/
theorem freshVarName_distinct_witness :
    (issueNames Counter.new ["x", "y", "x"]).getD 0 "" =
      "x" ++ "_" ++ Nat.repr ((["x", "y", "x"].take 1).count "x") ∧
    (issueNames Counter.new ["x", "y", "x"]).getD 0 "" ≠
      (issueNames Counter.new ["x", "y", "x"]).getD 2 "" := by
  have h := freshVarName_distinct ["x", "y", "x"] 0 2 (by decide) (by decide)
  exact ⟨h.1, h.2 (by decide) rfl⟩


theorem freshVar_fst (gs : GState) (p : String) :
    (freshVar gs p).1 = BVal.var (p ++ "_" ++ Nat.repr (vcount gs p + 1)) := by
  simp [freshVar, freshVarNameG, Counter.freshVarName, bumpCount_fst, vcount]


theorem vcount_freshVar (gs : GState) (p q : String) :
    vcount (freshVar gs p).2 q =
      if q = p then vcount gs p + 1 else vcount gs q := by
  simp only [freshVar, freshVarNameG, Counter.freshVarName, vcount]
  exact countOf_bumpCount gs.counter.varCounters p q


theorem freshVar_rng (gs : GState) (p : String) :
    (freshVar gs p).2.rng = gs.rng := rfl


theorem freshVar_rngIdx (gs : GState) (p : String) :
    (freshVar gs p).2.rngIdx = gs.rngIdx := rfl


/-- Closed form of the block list after `Env::from_old_env`: exactly one
new block is appended, all of whose context fields are freshly issued
symbolic variables (the counter offsets reflect that `Block::new` draws
each prefix once and `from_old_env` redraws gasprice/mem_size twice and the
other context fields once). -/
theorem fromOldEnv_blocks (oldEnv : Env) (gs : GState) :
    (Env.fromOldEnv oldEnv gs).1.blocks =
      oldEnv.blocks ++
        [⟨BVal.var ("gasprice" ++ "_" ++ Nat.repr (vcount gs "gasprice" + 3)),
          BVal.var ("mem_size" ++ "_" ++ Nat.repr (vcount gs "mem_size" + 3)),
          BVal.var ("gas_limit" ++ "_" ++ Nat.repr (vcount gs "gas_limit" + 2)),
          BVal.var ("difficulty" ++ "_" ++
            Nat.repr (vcount gs "difficulty" + 2)),
          BVal.var ("number" ++ "_" ++ Nat.repr (vcount gs "number" + 2)),
          BVal.var ("timestamp" ++ "_" ++ Nat.repr (vcount gs "timestamp" + 2)),
          BVal.var ("coinbase" ++ "_" ++ Nat.repr (vcount gs "coinbase" + 2)),
          BVal.var ("blockhash" ++ "_" ++ Nat.repr (vcount gs "blockhash" + 2)),
          BVal.var ("chainid" ++ "_" ++ Nat.repr (vcount gs "chainid" + 1)),
          none⟩] := by
  simp +decide +arith [Env.fromOldEnv, Block.new, Env.setLatestBlock,
    Env.latestBlock, freshVar_fst, vcount_freshVar, List.dropLast_concat,
    List.getLastD_concat]


/-- Closed form of the constraint list after `Env::from_old_env`: the old
constraints are kept as a prefix and twelve new constraints are appended,
among them `old.number < new.number` and `old.timestamp < new.timestamp`,
plus the random coinbase/blockhash bindings. -/
theorem fromOldEnv_constraints (oldEnv : Env) (gs : GState) :
    (Env.fromOldEnv oldEnv gs).1.constraints =
      oldEnv.constraints ++
        [BVal.lt (BVal.var ("gasprice" ++ "_" ++
            Nat.repr (vcount gs "gasprice" + 2))) (BVal.const256 MAX_GASPRICE),
         BVal.lt (BVal.var ("mem_size" ++ "_" ++
            Nat.repr (vcount gs "mem_size" + 2))) (BVal.constUsize 100000),
         BVal.lt (BVal.var ("gasprice" ++ "_" ++
            Nat.repr (vcount gs "gasprice" + 3))) (BVal.const256 MAX_GASPRICE),
         BVal.lt (BVal.var ("gas_limit" ++ "_" ++
            Nat.repr (vcount gs "gas_limit" + 2))) (BVal.const256 GAS_LIMIT),
         BVal.lt (BVal.var ("mem_size" ++ "_" ++
            Nat.repr (vcount gs "mem_size" + 3))) (BVal.constUsize 100000),
         BVal.lt (BVal.var ("difficulty" ++ "_" ++
            Nat.repr (vcount gs "difficulty" + 2)))
           (BVal.const256 MAX_DIFFICULTY),
         BVal.lt oldEnv.latestBlock.number
           (BVal.var ("number" ++ "_" ++ Nat.repr (vcount gs "number" + 2))),
         BVal.lt oldEnv.latestBlock.timestamp
           (BVal.var ("timestamp" ++ "_" ++
             Nat.repr (vcount gs "timestamp" + 2))),
         BVal.lt (BVal.var ("number" ++ "_" ++
            Nat.repr (vcount gs "number" + 2))) (BVal.const256 MAX_NUMBER),
         BVal.lt (BVal.var ("timestamp" ++ "_" ++
            Nat.repr (vcount gs "timestamp" + 2))) (BVal.const256 MAX_TIMESTAMP),
         BVal.eql (BVal.var ("coinbase" ++ "_" ++
            Nat.repr (vcount gs "coinbase" + 2)))
           (BVal.constVec ((((gs.rng gs.rngIdx).take 32).map
             (· % 256)).take 20)),
         BVal.eql (BVal.var ("blockhash" ++ "_" ++
            Nat.repr (vcount gs "blockhash" + 2)))
           (BVal.constVec (((gs.rng (gs.rngIdx + 1)).take 32).map
             (· % 256)))] := by
  simp +decide +arith [Env.fromOldEnv, Block.new, Env.setLatestBlock,
    Env.latestBlock, freshVar_fst, vcount_freshVar, freshVar_rng,
    freshVar_rngIdx, generateRandomAddress, generateRandomHash,
    generateRandomVec, List.dropLast_concat, List.getLastD_concat]


/-- C2: `Env::from_old_env` adds exactly one block whose gasprice,
gas_limit, difficulty, number, timestamp, coinbase and blockhash fields are
freshly issued symbolic variables (their counter indices strictly exceed
the pre-call counter values, so they differ from every name issued
before), keeps the old constraints as a prefix, and additionally constrains
`old.latest_block().number < new.number` and
`old.latest_block().timestamp < new.timestamp`. -/
theorem fromOldEnv_spec (oldEnv : Env) (gs : GState) :
    (Env.fromOldEnv oldEnv gs).1.blocks =
      oldEnv.blocks ++ [(Env.fromOldEnv oldEnv gs).1.latestBlock] ∧
    (∃ n, vcount gs "gasprice" < n ∧
      (Env.fromOldEnv oldEnv gs).1.latestBlock.gasprice =
        BVal.var ("gasprice" ++ "_" ++ Nat.repr n)) ∧
    (∃ n, vcount gs "gas_limit" < n ∧
      (Env.fromOldEnv oldEnv gs).1.latestBlock.gasLimit =
        BVal.var ("gas_limit" ++ "_" ++ Nat.repr n)) ∧
    (∃ n, vcount gs "difficulty" < n ∧
      (Env.fromOldEnv oldEnv gs).1.latestBlock.difficulty =
        BVal.var ("difficulty" ++ "_" ++ Nat.repr n)) ∧
    (∃ n, vcount gs "number" < n ∧
      (Env.fromOldEnv oldEnv gs).1.latestBlock.number =
        BVal.var ("number" ++ "_" ++ Nat.repr n)) ∧
    (∃ n, vcount gs "timestamp" < n ∧
      (Env.fromOldEnv oldEnv gs).1.latestBlock.timestamp =
        BVal.var ("timestamp" ++ "_" ++ Nat.repr n)) ∧
    (∃ n, vcount gs "coinbase" < n ∧
      (Env.fromOldEnv oldEnv gs).1.latestBlock.coinbase =
        BVal.var ("coinbase" ++ "_" ++ Nat.repr n)) ∧
    (∃ n, vcount gs "blockhash" < n ∧
      (Env.fromOldEnv oldEnv gs).1.latestBlock.blockhash =
        BVal.var ("blockhash" ++ "_" ++ Nat.repr n)) ∧
    (Env.fromOldEnv oldEnv gs).1.constraints.take oldEnv.constraints.length =
      oldEnv.constraints ∧
    BVal.lt oldEnv.latestBlock.number
        (Env.fromOldEnv oldEnv gs).1.latestBlock.number ∈
      (Env.fromOldEnv oldEnv gs).1.constraints ∧
    BVal.lt oldEnv.latestBlock.timestamp
        (Env.fromOldEnv oldEnv gs).1.latestBlock.timestamp ∈
      (Env.fromOldEnv oldEnv gs).1.constraints := by
  have hb := fromOldEnv_blocks oldEnv gs
  have hlb : (Env.fromOldEnv oldEnv gs).1.latestBlock =
      ⟨BVal.var ("gasprice" ++ "_" ++ Nat.repr (vcount gs "gasprice" + 3)),
        BVal.var ("mem_size" ++ "_" ++ Nat.repr (vcount gs "mem_size" + 3)),
        BVal.var ("gas_limit" ++ "_" ++ Nat.repr (vcount gs "gas_limit" + 2)),
        BVal.var ("difficulty" ++ "_" ++
          Nat.repr (vcount gs "difficulty" + 2)),
        BVal.var ("number" ++ "_" ++ Nat.repr (vcount gs "number" + 2)),
        BVal.var ("timestamp" ++ "_" ++ Nat.repr (vcount gs "timestamp" + 2)),
        BVal.var ("coinbase" ++ "_" ++ Nat.repr (vcount gs "coinbase" + 2)),
        BVal.var ("blockhash" ++ "_" ++ Nat.repr (vcount gs "blockhash" + 2)),
        BVal.var ("chainid" ++ "_" ++ Nat.repr (vcount gs "chainid" + 1)),
        none⟩ := by
    rw [Env.latestBlock, hb, List.getLastD_concat]
  refine ⟨?_, ⟨vcount gs "gasprice" + 3, by omega, by rw [hlb]⟩,
    ⟨vcount gs "gas_limit" + 2, by omega, by rw [hlb]⟩,
    ⟨vcount gs "difficulty" + 2, by omega, by rw [hlb]⟩,
    ⟨vcount gs "number" + 2, by omega, by rw [hlb]⟩,
    ⟨vcount gs "timestamp" + 2, by omega, by rw [hlb]⟩,
    ⟨vcount gs "coinbase" + 2, by omega, by rw [hlb]⟩,
    ⟨vcount gs "blockhash" + 2, by omega, by rw [hlb]⟩, ?_, ?_, ?_⟩
  · rw [hb, hlb]
  · rw [fromOldEnv_constraints]
    exact List.take_left oldEnv.constraints _
  · rw [fromOldEnv_constraints, hlb]
    simp
  · rw [fromOldEnv_constraints, hlb]
    simp


/-! ### Determinism of `from_old_env` (claim C3) -/

/-- C3 (amended): `Env::from_old_env` is deterministic only relative to the
process-wide fresh-name counter and to the RNG: two calls on equal
environments whose global states agree on the counter and on the random
stream produce equal environments.  (Two successive calls inside one
process do not satisfy this: the first call advances the shared counter and
consumes the stream, see the accompanying counterexample.) -/
theorem fromOldEnv_state_determinism (e e' : Env) (gs gs' : GState)
    (he : e = e') (hc : gs.counter = gs'.counter) (hr : gs.rng = gs'.rng)
    (hi : gs.rngIdx = gs'.rngIdx) :
    Env.fromOldEnv e gs = Env.fromOldEnv e' gs' := by
  cases gs
  cases gs'
  cases he
  cases hc
  cases hr
  cases hi
  rfl


/-- Witness for the amended C3 at a concrete environment and state. -/
theorem fromOldEnv_state_determinism_witness :
    Env.fromOldEnv envC3 gsC3b = Env.fromOldEnv envC3 gsC3b :=
  fromOldEnv_state_determinism envC3 envC3 gsC3b gsC3b rfl rfl rfl rfl


/-- Counterexample to C3 as stated: two successive calls of
`Env::from_old_env` on the *same* environment produce different constraint
lists — the fresh-variable names embed the advanced process-wide counter
(and the coinbase/blockhash constraints embed fresh random draws), so the
two runs are observably different. -/
theorem fromOldEnv_not_deterministic :
    (Env.fromOldEnv envC3 gsC3b).1.constraints ≠
      (Env.fromOldEnv envC3 (Env.fromOldEnv envC3 gsC3b).2).1.constraints := by
  decide


/-! ### Memory-chain lemmas (claim C6) -/

theorem chainWritesF_stable (mem : SymbolicMemory) (hwf : memWF mem) :
    ∀ m f1 f2, m < f1 → m < f2 →
      chainWritesF mem f1 m = chainWritesF mem f2 m := by
  intro m
  induction m using Nat.strong_induction_on with
  | _ m ih =>
    intro f1 f2 h1 h2
    cases f1 with
    | zero => omega
    | succ a =>
      cases f2 with
      | zero => omega
      | succ b =>
        simp only [chainWritesF]
        cases hg : mem[m]? with
        | none => rfl
        | some e =>
          dsimp only
          cases hop : e.op with
          | fresh _ _ => simp [hop]
          | write256 i w =>
            cases hpar : e.parent with
            | none => simp [hop, hpar]
            | some p =>
              have hpm : p < m := hwf m e hg p hpar
              simp only [hop, hpar]
              rw [ih p hpm a b (by omega) (by omega)]


theorem chainWritesF_append (mem ext : SymbolicMemory) (hwf : memWF mem) :
    ∀ f m, m < mem.length →
      chainWritesF (mem ++ ext) f m = chainWritesF mem f m := by
  intro f
  induction f with
  | zero => intro m _; rfl
  | succ f ih =>
    intro m hm
    simp only [chainWritesF]
    rw [List.getElem?_append_left hm]
    cases hg : mem[m]? with
    | none => rfl
    | some e =>
      dsimp only
      cases hop : e.op with
      | fresh _ _ => simp [hop]
      | write256 i w =>
        cases hpar : e.parent with
        | none => simp [hop, hpar]
        | some p =>
          have hpm : p < m := hwf m e hg p hpar
          have hplen : p < mem.length := by omega
          simp only [hop, hpar]
          rw [ih p hplen]


theorem chainWrites_append (mem ext : SymbolicMemory) (hwf : memWF mem)
    (m : MVal) (hm : m < mem.length) :
    chainWrites (mem ++ ext) m = chainWrites mem m :=
  chainWritesF_append mem ext hwf (m + 1) m hm


theorem memWF_append_single (mem : SymbolicMemory) (entry : MemEntry)
    (hwf : memWF mem)
    (hpar : ∀ p, entry.parent = some p → p < mem.length) :
    memWF (mem ++ [entry]) := by
  intro i e hg p hp
  by_cases hi : i < mem.length
  · rw [List.getElem?_append_left hi] at hg
    exact hwf i e hg p hp
  · by_cases hieq : i = mem.length
    · subst hieq
      rw [List.getElem?_concat_length] at hg
      cases hg
      exact hpar p hp
    · rw [List.getElem?_eq_none (by simp; omega)] at hg
      cases hg


theorem memWF_createNew (mem : SymbolicMemory) (name : String)
    (ty : MemoryType) (size : Option BVal) (owner : Option AccountId)
    (hwf : memWF mem) :
    memWF (createNewMemory mem name ty size owner).2 := by
  apply memWF_append_single mem _ hwf
  intro p hp
  cases hp


theorem memWF_wordWrite (mem : SymbolicMemory) (m : MVal) (i w : BVal)
    (hwf : memWF mem) (hm : m < mem.length) :
    memWF (wordWrite mem m i w).2 := by
  apply memWF_append_single mem _ hwf
  intro p hp
  cases hp
  exact hm


theorem chainWrites_createNew (mem : SymbolicMemory) (name : String)
    (ty : MemoryType) (size : Option BVal) (owner : Option AccountId) :
    chainWrites (createNewMemory mem name ty size owner).2
      (createNewMemory mem name ty size owner).1 = [] := by
  simp only [chainWrites, createNewMemory, chainWritesF,
    List.getElem?_concat_length]


theorem chainWrites_wordWrite (mem : SymbolicMemory) (m : MVal) (i w : BVal)
    (hwf : memWF mem) (hm : m < mem.length) :
    chainWrites (wordWrite mem m i w).2 (wordWrite mem m i w).1 =
      chainWrites mem m ++ [(i, w)] := by
  show chainWritesF (mem ++ [_]) (mem.length + 1) mem.length = _
  simp only [chainWritesF, List.getElem?_concat_length]
  rw [chainWritesF_append mem _ hwf mem.length m hm,
    chainWritesF_stable mem hwf m mem.length (m + 1) hm (by omega)]
  rfl


theorem processStorage_spec :
    ∀ (entries : List (Yaml × Yaml)) (mem : SymbolicMemory) (storage : MVal)
      (out : List (Nat × Nat) × MVal × SymbolicMemory),
      processStorage entries mem storage = some out →
      memWF mem → storage < mem.length →
      ∃ ps, parsePairs entries = some ps ∧
        out.1 = ps.map (·.2) ∧
        out.2.1 < out.2.2.length ∧
        memWF out.2.2 ∧
        (∃ ext, out.2.2 = mem ++ ext) ∧
        chainWrites out.2.2 out.2.1 =
          chainWrites mem storage ++ ps.map (·.1) := by
  intro entries
  induction entries with
  | nil =>
    intro mem storage out hrun hwf hs
    cases hrun
    exact ⟨[], rfl, rfl, hs, hwf, ⟨[], by simp⟩, by simp⟩
  | cons hd rest ih =>
    intro mem storage out hrun hwf hs
    obtain ⟨a, v⟩ := hd
    simp only [processStorage, Option.bind_eq_bind, Option.bind_eq_some] at hrun
    obtain ⟨addr, haddr, val, hval, ua, hua, uv, huv, r, hr, hout⟩ := hrun
    have hwf' : memWF (wordWrite mem storage addr val).2 :=
      memWF_wordWrite mem storage addr val hwf hs
    have hs' : (wordWrite mem storage addr val).1 <
        (wordWrite mem storage addr val).2.length := by
      simp [wordWrite]
    obtain ⟨ps, hps, hfst, hlt, hwf2, ⟨ext, hext⟩, hchain⟩ :=
      ih (wordWrite mem storage addr val).2
        (wordWrite mem storage addr val).1 r hr hwf' hs'
    refine ⟨((addr, val), (ua, uv)) :: ps, ?_, ?_, ?_, ?_, ?_, ?_⟩
    · simp [parsePairs, haddr, hval, hua, huv, hps]
    · cases hout
      simp [hfst]
    · cases hout
      exact hlt
    · cases hout
      exact hwf2
    · cases hout
      refine ⟨(wordWrite mem storage addr val).2.drop mem.length ++ ext, ?_⟩
      rw [hext]
      simp [wordWrite]
    · cases hout
      rw [hchain, chainWrites_wordWrite mem storage addr val hwf hs]
      simp


theorem mem_alistInsert {K V : Type} [DecidableEq K] (l : List (K × V))
    (k : K) (v : V) : ∀ p ∈ alistInsert l k v, p = (k, v) ∨ p ∈ l := by
  induction l with
  | nil =>
    intro p hp
    simp [alistInsert] at hp
    exact Or.inl hp
  | cons hd tl ih =>
    obtain ⟨k0, v0⟩ := hd
    intro p hp
    by_cases h : k0 = k
    · subst h
      simp only [alistInsert, if_pos rfl] at hp
      rcases List.mem_cons.mp hp with h1 | h1
      · exact Or.inl (by simpa using h1)
      · exact Or.inr (List.mem_cons_of_mem _ h1)
    · simp only [alistInsert, if_neg h] at hp
      rcases List.mem_cons.mp hp with h1 | h1
      · exact Or.inr (by simp [h1])
      · rcases ih p h1 with h2 | h2
        · exact Or.inl h2
        · exact Or.inr (List.mem_cons_of_mem _ h2)


theorem modifyAccount_lookup (e : Env) (id : AccountId) (f : Account → Account)
    (e' : Env) (h : e.modifyAccount id f = some e') :
    ∃ acc, e.accounts.lookup id = some acc ∧
      e'.accounts = alistInsert e.accounts id (f acc) ∧
      e'.accounts.lookup id = some (f acc) ∧
      (∀ oid, oid ≠ id → e'.accounts.lookup oid = e.accounts.lookup oid) ∧
      e'.accCounter = e.accCounter ∧
      e'.loadedAccounts = e.loadedAccounts := by
  rw [Env.modifyAccount] at h
  cases hl : e.accounts.lookup id with
  | none => rw [hl] at h; cases h
  | some acc =>
    rw [hl] at h
    cases h
    exact ⟨acc, rfl, rfl, lookup_alistInsert_self .., fun oid hne =>
      lookup_alistInsert_other _ _ _ _ hne, rfl, rfl⟩


/-- Effect of `Env::new_account`: the fresh id is `acc_counter + 1`, the
account is inserted with the requested address, code and balance, a fresh
storage is appended to the memory table, and every previously bounded id is
untouched. -/
theorem newAccount_spec (e : Env) (mem : SymbolicMemory) (name : String)
    (addr : BVal) (code : Option (List Nat)) (balance : BVal) (gs : GState) :
    (e.newAccount mem name addr code balance gs).1 = ⟨e.accCounter + 1⟩ ∧
    (e.newAccount mem name addr code balance gs).2.1.accCounter =
      e.accCounter + 1 ∧
    (e.newAccount mem name addr code balance gs).2.1.loadedAccounts =
      e.loadedAccounts ∧
    (e.newAccount mem name addr code balance gs).2.2.1 =
      mem ++ [⟨MemoryType.storage, none,
        MemOp.fresh ((freshAccountNameG gs name).1 ++ "_storage") none,
        some ⟨e.accCounter + 1⟩⟩] ∧
    (∀ id : AccountId, id.val ≤ e.accCounter →
      (e.newAccount mem name addr code balance gs).2.1.accounts.lookup id =
        e.accounts.lookup id) ∧
    (∃ acc,
      (e.newAccount mem name addr code balance gs).2.1.accounts =
        alistInsert e.accounts ⟨e.accCounter + 1⟩ acc ∧
      (e.newAccount mem name addr code balance gs).2.1.accounts.lookup
        ⟨e.accCounter + 1⟩ = some acc ∧
      acc.addr = addr ∧ acc.balance = balance ∧ acc.code = code ∧
      acc.storage = mem.length ∧ acc.initialStorage = none ∧
      acc.owner = none ∧ acc.initialBalance = none ∧
      acc.constraints = []) := by
  refine ⟨rfl, rfl, rfl, rfl, ?_, ?_⟩
  · intro id hid
    have hne : id ≠ ⟨e.accCounter + 1⟩ := by
      intro hc
      cases hc
      dsimp at hid
      omega
    exact lookup_alistInsert_other _ _ _ _ hne
  · exact ⟨_, rfl, lookup_alistInsert_self .., rfl, rfl, rfl, rfl, rfl, rfl,
      rfl, rfl⟩


theorem entrySpec_stable (p : Yaml × Yaml) (id : AccountId) (e e' : Env)
    (mem mem' : SymbolicMemory)
    (hspec : entrySpec p id e mem)
    (hacc : e'.accounts.lookup id = e.accounts.lookup id)
    (hext : ∃ ext, mem' = mem ++ ext)
    (hwf : memWF mem)
    (hbound : ∀ acc, e.accounts.lookup id = some acc →
      acc.storage < mem.length) :
    entrySpec p id e' mem' := by
  obtain ⟨bytes, bal, acc, sHash, h1, h2, h3, h4, h5, h6, h7, h8, h9⟩ := hspec
  obtain ⟨ext, rfl⟩ := hext
  have hchain : chainWrites (mem ++ ext) acc.storage =
      chainWrites mem acc.storage :=
    chainWrites_append mem ext hwf acc.storage (hbound acc h4)
  refine ⟨bytes, bal, acc, sHash, h1, h2, h3, hacc.trans h4, h5, h6, h7,
    ?_, ?_⟩
  · intro hc
    obtain ⟨c1, c2, c3, c4⟩ := h8 hc
    exact ⟨c1, c2, c3, by rw [hchain]; exact c4⟩
  · intro hc
    obtain ⟨hcode, hsb, hsg, hob, hog⟩ := h9 hc
    refine ⟨hcode, ?_, ?_, hob, hog⟩
    · intro hb
      obtain ⟨d1, d2⟩ := hsb hb
      exact ⟨d1, by rw [hchain]; exact d2⟩
    · intro hb
      obtain ⟨stE, ps, d1, d2, d3, d4⟩ := hsg hb
      exact ⟨stE, ps, d1, d2, d3, by rw [hchain]; exact d4⟩


theorem processEntryStorage_spec (p2 : Yaml) (env1 : Env)
    (mem1 : SymbolicMemory) (id : AccountId) (out : Env × SymbolicMemory)
    (hrun : processEntryStorage p2 env1 mem1 id = some out)
    (hwf : memWF mem1)
    (hbound : ∀ acc, env1.accounts.lookup id = some acc →
      acc.storage < mem1.length) :
    (∃ ext, out.2 = mem1 ++ ext) ∧
    memWF out.2 ∧
    out.1.accCounter = env1.accCounter ∧
    out.1.loadedAccounts = env1.loadedAccounts ∧
    (∀ oid, oid ≠ id → out.1.accounts.lookup oid = env1.accounts.lookup oid) ∧
    (∀ p ∈ out.1.accounts, p = (id, (out.1.accounts.lookup id).getD p.2) ∨
      p ∈ env1.accounts) ∧
    ((p2.get "storage").isBadvalue = true → out.1 = env1 ∧ out.2 = mem1) ∧
    ((p2.get "storage").isBadvalue = false →
      ∃ acc stEntries ps newStorage,
        env1.accounts.lookup id = some acc ∧
        (p2.get "storage").asHash = some stEntries ∧
        parsePairs stEntries = some ps ∧
        out.1.accounts.lookup id =
          some { acc with storage := newStorage,
                          initialStorage := some (ps.map (·.2)) } ∧
        newStorage < out.2.length ∧
        chainWrites out.2 newStorage =
          chainWrites mem1 acc.storage ++ ps.map (·.1)) := by
  rw [processEntryStorage] at hrun
  by_cases hb : (p2.get "storage").isBadvalue
  · rw [if_neg (by simp [hb])] at hrun
    cases hrun
    refine ⟨⟨[], by simp⟩, hwf, rfl, rfl, fun _ _ => rfl, ?_, fun _ => ⟨rfl, rfl⟩,
      ?_⟩
    · intro p hp
      exact Or.inr hp
    · intro hc
      rw [hb] at hc
      cases hc
  · rw [if_pos (by simp [hb])] at hrun
    simp only [Option.bind_eq_bind, Option.bind_eq_some, Option.pure_def,
      Option.some.injEq] at hrun
    obtain ⟨stEntries, hst, acc, hacc, rs, hrs, env2, henv2, hout⟩ := hrun
    obtain ⟨ps, hps, hfst, hlt, hwf2, hext, hchain⟩ :=
      processStorage_spec stEntries mem1 acc.storage rs hrs hwf
        (hbound acc hacc)
    obtain ⟨accA, haccA, heq2, hlook2, hother2, hcnt2, hload2⟩ :=
      modifyAccount_lookup env1 id _ env2 henv2
    rw [haccA] at hacc
    cases hacc
    subst hout
    refine ⟨hext, hwf2, hcnt2, hload2, hother2, ?_, ?_, ?_⟩
    · intro p hp
      rcases mem_alistInsert _ _ _ p (heq2 ▸ hp) with h1 | h1
      · left
        rw [h1, hlook2]
        rfl
      · exact Or.inr h1
    · intro hc
      rw [hc] at hb
      cases hb rfl
    · intro _
      refine ⟨acc, stEntries, ps, rs.2.1, haccA, hst, hps, ?_, hlt, ?_⟩
      · rw [hlook2, hfst]
      · rw [hchain]


theorem processEntryOwner_spec (p2 : Yaml) (env2 : Env) (id : AccountId)
    (out : Env) (hrun : processEntryOwner p2 env2 id = some out) :
    out.accCounter = env2.accCounter ∧
    out.loadedAccounts = env2.loadedAccounts ∧
    (∀ oid, oid ≠ id → out.accounts.lookup oid = env2.accounts.lookup oid) ∧
    (∀ p ∈ out.accounts, p = (id, (out.accounts.lookup id).getD p.2) ∨
      p ∈ env2.accounts) ∧
    ((p2.get "owner").isBadvalue = true → out = env2) ∧
    ((p2.get "owner").isBadvalue = false →
      ∃ acc ov, parseYamlValue (p2.get "owner") = some ov ∧
        env2.accounts.lookup id = some acc ∧
        out.accounts.lookup id = some { acc with owner := some ov }) := by
  rw [processEntryOwner] at hrun
  by_cases hb : (p2.get "owner").isBadvalue
  · rw [if_neg (by simp [hb])] at hrun
    cases hrun
    refine ⟨rfl, rfl, fun _ _ => rfl, fun p hp => Or.inr hp, fun _ => rfl, ?_⟩
    intro hc
    rw [hb] at hc
    cases hc
  · rw [if_pos (by simp [hb])] at hrun
    simp only [Option.bind_eq_bind, Option.bind_eq_some] at hrun
    obtain ⟨ov, hov, hmod⟩ := hrun
    obtain ⟨acc, hacc, heq2, hlook2, hother2, hcnt2, hload2⟩ :=
      modifyAccount_lookup env2 id _ out hmod
    refine ⟨hcnt2, hload2, hother2, ?_, ?_, ?_⟩
    · intro p hp
      rcases mem_alistInsert _ _ _ p (heq2 ▸ hp) with h1 | h1
      · left
        rw [h1, hlook2]
        rfl
      · exact Or.inr h1
    · intro hc
      rw [hc] at hb
      cases hb rfl
    · intro _
      exact ⟨acc, ov, hov, hacc, hlook2⟩


theorem chainWrites_concat_fresh (mem : SymbolicMemory) (e : MemEntry)
    (name : String) (size : Option BVal) (hop : e.op = MemOp.fresh name size) :
    chainWrites (mem ++ [e]) mem.length = [] := by
  simp [chainWrites, chainWritesF, List.getElem?_concat_length, hop]


theorem processEntryAccount_spec (victimAddr accountAddr accountBalance : BVal)
    (p2 : Yaml) (sHash : List (Yaml × Yaml)) (env0 : Env)
    (memory0 : SymbolicMemory) (gs0 : GState)
    (r : AccountId × Env × SymbolicMemory × GState)
    (hrun : processEntryAccount victimAddr accountAddr accountBalance p2
      sHash env0 memory0 gs0 = some r)
    (hwf : memWF memory0) (haw : accountsWF env0 memory0) :
    r.1 = ⟨env0.accCounter + 1⟩ ∧
    r.2.1.accCounter = env0.accCounter + 1 ∧
    (∃ ext, r.2.2.1 = memory0 ++ ext) ∧
    memWF r.2.2.1 ∧
    accountsWF r.2.1 r.2.2.1 ∧
    (∀ id : AccountId, id.val ≤ env0.accCounter →
      r.2.1.accounts.lookup id = env0.accounts.lookup id) ∧
    (∃ acc, r.2.1.accounts.lookup r.1 = some acc ∧
      acc.addr = accountAddr ∧ acc.balance = accountBalance ∧
      acc.initialBalance = none ∧
      (containsKeyStr sHash "code" = false →
        acc.code = none ∧ acc.initialStorage = none ∧ acc.owner = none ∧
        chainWrites r.2.2.1 acc.storage = []) ∧
      (containsKeyStr sHash "code" = true →
        (∃ codeBytes, ((p2.get "code").asStr.bind hexdecode) =
            some codeBytes ∧ acc.code = some codeBytes) ∧
        ((p2.get "storage").isBadvalue = true →
          acc.initialStorage = none ∧ chainWrites r.2.2.1 acc.storage = []) ∧
        ((p2.get "storage").isBadvalue = false →
          ∃ stEntries ps, (p2.get "storage").asHash = some stEntries ∧
            parsePairs stEntries = some ps ∧
            acc.initialStorage = some (ps.map (·.2)) ∧
            chainWrites r.2.2.1 acc.storage = ps.map (·.1)) ∧
        ((p2.get "owner").isBadvalue = false →
          ∃ ov, parseYamlValue (p2.get "owner") = some ov ∧
            acc.owner = some ov) ∧
        ((p2.get "owner").isBadvalue = true → acc.owner = none))) := by
  simp only [processEntryAccount] at hrun
  set nm := (if accountAddr = victimAddr then "victim" else "other") with hnm
  by_cases hcode : containsKeyStr sHash "code"
  case neg =>
    rw [if_neg hcode] at hrun
    simp only [Option.pure_def, Option.some.injEq] at hrun
    subst hrun
    obtain ⟨hid, hcnt, hload, hmem, hpres, acc0, heqacc, hlook0, haddr0, hbal0,
      hcode0, hstor0, hinitS0, hown0, hinitB0, hconstr0⟩ :=
      newAccount_spec env0 memory0 nm accountAddr none accountBalance gs0
    refine ⟨hid, hcnt, ⟨_, hmem⟩, ?_, ?_, hpres, ?_⟩
    · rw [hmem]
      exact memWF_append_single memory0 _ hwf (by intro p hp; cases hp)
    · intro p hp
      rcases mem_alistInsert _ _ _ p (heqacc ▸ hp) with h1 | h1
      · subst h1
        constructor
        · rw [hcnt]
        · show acc0.storage < _
          rw [hstor0, hmem]
          simp
      · obtain ⟨hb1, hb2⟩ := haw p h1
        constructor
        · rw [hcnt]
          exact Nat.le_succ_of_le hb1
        · rw [hmem]
          simp
          exact Nat.lt_succ_of_lt hb2
    · refine ⟨acc0, hid ▸ hlook0, haddr0, hbal0, hinitB0, ?_, ?_⟩
      · intro _
        refine ⟨hcode0, hinitS0, hown0, ?_⟩
        rw [hstor0, hmem]
        exact chainWrites_concat_fresh memory0 _ _ _ rfl
      · intro hc
        exact absurd hc hcode
  case pos =>
    rw [if_pos hcode] at hrun
    simp only [Option.bind_eq_bind, Option.bind_eq_some, Option.pure_def,
      Option.some.injEq] at hrun
    obtain ⟨codeStr, hcs, code, hcodeB, r1, hr1, env3, henv3, hout⟩ := hrun
    set rn := env0.newAccount memory0 nm accountAddr (some code)
      accountBalance gs0 with hrn
    obtain ⟨hid, hcnt, hload, hmem, hpres, acc0, heqacc, hlook0, haddr0, hbal0,
      hcode0, hstor0, hinitS0, hown0, hinitB0, hconstr0⟩ :=
      newAccount_spec env0 memory0 nm accountAddr (some code)
        accountBalance gs0
    rw [← hrn] at hid hcnt hload hmem hpres heqacc hlook0
    have hwf1 : memWF rn.2.2.1 := by
      rw [hmem]
      exact memWF_append_single memory0 _ hwf (by intro p hp; cases hp)
    have hstor0lt : acc0.storage < rn.2.2.1.length := by
      rw [hstor0, hmem]
      simp
    have hbound1 : ∀ acc, rn.2.1.accounts.lookup rn.1 = some acc →
        acc.storage < rn.2.2.1.length := by
      intro acc hl
      rw [hid, hlook0] at hl
      cases hl
      exact hstor0lt
    have hchain0 : chainWrites rn.2.2.1 acc0.storage = [] := by
      rw [hstor0, hmem]
      exact chainWrites_concat_fresh memory0 _ _ _ rfl
    obtain ⟨⟨ext1, hext1⟩, hwfS, hcntS, hloadS, hotherS, hmemS, hbadS,
      hgoodS⟩ := processEntryStorage_spec p2 rn.2.1 rn.2.2.1 rn.1 r1 hr1
        hwf1 hbound1
    obtain ⟨hcntO, hloadO, hotherO, hmemO, hbadO, hgoodO⟩ :=
      processEntryOwner_spec p2 r1.1 rn.1 env3 henv3
    have hlenS : memory0.length < r1.2.length := by
      rw [hext1, hmem]
      simp
    have hacc1 : ∃ acc1, r1.1.accounts.lookup rn.1 = some acc1 ∧
        acc1.addr = accountAddr ∧ acc1.balance = accountBalance ∧
        acc1.initialBalance = none ∧ acc1.code = some code ∧
        acc1.owner = none ∧
        acc1.storage < r1.2.length ∧
        ((p2.get "storage").isBadvalue = true →
          acc1.initialStorage = none ∧ chainWrites r1.2 acc1.storage = []) ∧
        ((p2.get "storage").isBadvalue = false →
          ∃ stEntries ps, (p2.get "storage").asHash = some stEntries ∧
            parsePairs stEntries = some ps ∧
            acc1.initialStorage = some (ps.map (·.2)) ∧
            chainWrites r1.2 acc1.storage = ps.map (·.1)) := by
      by_cases hsb : (p2.get "storage").isBadvalue
      · obtain ⟨henvS, hmemSeq⟩ := hbadS hsb
        refine ⟨acc0, ?_, haddr0, hbal0, hinitB0, hcode0, hown0, ?_, ?_, ?_⟩
        · rw [henvS, hid]
          exact hid ▸ hlook0
        · rw [hmemSeq]
          exact hstor0lt
        · intro _
          refine ⟨hinitS0, ?_⟩
          rw [hmemSeq]
          exact hchain0
        · intro hc
          simp [hsb] at hc
      · have hsb' : (p2.get "storage").isBadvalue = false := by
          cases hq : (p2.get "storage").isBadvalue
          · rfl
          · cases hsb hq
        obtain ⟨acc, stEntries, ps, newStorage, haccL, hstE, hps, hlookS,
          hltS, hchainS⟩ := hgoodS hsb'
        rw [hid, hlook0] at haccL
        cases haccL
        refine ⟨_, hlookS, haddr0, hbal0, hinitB0, hcode0, hown0, hltS,
          ?_, ?_⟩
        · intro hc
          rw [hc] at hsb'
          cases hsb'
        · intro _
          refine ⟨stEntries, ps, hstE, hps, rfl, ?_⟩
          rw [hchainS, hchain0]
          simp
    obtain ⟨acc1, hlook1, haddr1, hbal1, hinitB1, hcode1, hown1, hstor1lt,
      hbad1, hgood1⟩ := hacc1
    have hacc2 : ∃ acc2, env3.accounts.lookup rn.1 = some acc2 ∧
        acc2.addr = accountAddr ∧ acc2.balance = accountBalance ∧
        acc2.initialBalance = none ∧ acc2.code = some code ∧
        acc2.storage = acc1.storage ∧
        acc2.initialStorage = acc1.initialStorage ∧
        ((p2.get "owner").isBadvalue = true → acc2.owner = none) ∧
        ((p2.get "owner").isBadvalue = false →
          ∃ ov, parseYamlValue (p2.get "owner") = some ov ∧
            acc2.owner = some ov) := by
      by_cases hob : (p2.get "owner").isBadvalue
      · have henvO := hbadO hob
        refine ⟨acc1, ?_, haddr1, hbal1, hinitB1, hcode1, rfl, rfl, ?_, ?_⟩
        · rw [henvO]
          exact hlook1
        · intro _
          exact hown1
        · intro hc
          simp [hob] at hc
      · have hob' : (p2.get "owner").isBadvalue = false := by
          cases hq : (p2.get "owner").isBadvalue
          · rfl
          · cases hob hq
        obtain ⟨acc, ov, hov, haccL, hlookO⟩ := hgoodO hob'
        rw [hlook1] at haccL
        cases haccL
        refine ⟨_, hlookO, haddr1, hbal1, hinitB1, hcode1, rfl, rfl, ?_, ?_⟩
        · intro hc
          rw [hc] at hob'
          cases hob'
        · intro _
          exact ⟨ov, hov, rfl⟩
    obtain ⟨acc2, hlook2, haddr2, hbal2, hinitB2, hcode2, hstor2, hinitS2,
      hbad2, hgood2⟩ := hacc2
    subst hout
    refine ⟨hid, ?_, ?_, hwfS, ?_, ?_, ?_⟩
    · rw [hcntO, hcntS, hcnt]
    · have hh : r1.2 = memory0 ++ ([⟨MemoryType.storage, none,
          MemOp.fresh ((freshAccountNameG gs0 nm).1 ++ "_storage") none,
          some ⟨env0.accCounter + 1⟩⟩] ++ ext1) := by
        rw [hext1, hmem, List.append_assoc]
      exact ⟨_, hh⟩
    · intro p hp
      rcases hmemO p hp with h1 | h1
      · rw [hlook2] at h1
        simp only [Option.getD_some] at h1
        subst h1
        refine ⟨?_, ?_⟩
        · show AccountId.val rn.1 ≤ env3.accCounter
          rw [hcntO, hcntS, hcnt, hid]
        · show acc2.storage < r1.2.length
          rw [hstor2]
          exact hstor1lt
      · rcases hmemS p h1 with h2 | h2
        · rw [hlook1] at h2
          simp only [Option.getD_some] at h2
          subst h2
          refine ⟨?_, ?_⟩
          · show AccountId.val rn.1 ≤ env3.accCounter
            rw [hcntO, hcntS, hcnt, hid]
          · show acc1.storage < r1.2.length
            exact hstor1lt
        · rcases mem_alistInsert _ _ _ p (heqacc ▸ h2) with h3 | h3
          · subst h3
            refine ⟨?_, ?_⟩
            · show AccountId.val ⟨env0.accCounter + 1⟩ ≤ env3.accCounter
              rw [hcntO, hcntS, hcnt]
            · show acc0.storage < r1.2.length
              rw [hstor0]
              exact hlenS
          · obtain ⟨hb1, hb2⟩ := haw p h3
            refine ⟨?_, ?_⟩
            · show p.1.val ≤ env3.accCounter
              rw [hcntO, hcntS, hcnt]
              exact Nat.le_succ_of_le hb1
            · show p.2.storage < r1.2.length
              exact Nat.lt_trans hb2 hlenS
    · intro id hidle
      have hne : id ≠ rn.1 := by
        intro hc
        rw [hc, hid] at hidle
        dsimp at hidle
        exact Nat.not_succ_le_self _ hidle
      rw [hotherO id hne, hotherS id hne, hpres id hidle]
    · refine ⟨acc2, hlook2, haddr2, hbal2, hinitB2, ?_, ?_⟩
      · intro hc
        rw [hc] at hcode
        cases hcode
      · intro _
        refine ⟨⟨code, by rw [hcs]; exact hcodeB, hcode2⟩, ?_, ?_, hgood2,
          hbad2⟩
        · intro hsb
          obtain ⟨ha, hb⟩ := hbad1 hsb
          refine ⟨by rw [hinitS2, ha], ?_⟩
          show chainWrites r1.2 acc2.storage = []
          rw [hstor2]
          exact hb
        · intro hsb
          obtain ⟨stE, ps, d1, d2, d3, d4⟩ := hgood1 hsb
          refine ⟨stE, ps, d1, d2, by rw [hinitS2, d3], ?_⟩
          show chainWrites r1.2 acc2.storage = ps.map (·.1)
          rw [hstor2]
          exact d4


theorem processEntry_spec (vaddr : BVal) (entry : Yaml × Yaml) (env : Env)
    (mem : SymbolicMemory) (vic : AccountId) (gs : GState)
    (out : Env × SymbolicMemory × AccountId × GState)
    (hrun : processEntry vaddr (env, mem, vic, gs) entry = some out)
    (hwf : memWF mem) (haw : accountsWF env mem) :
    out.1.accCounter = env.accCounter + 1 ∧
    (∃ ext, out.2.1 = mem ++ ext) ∧
    memWF out.2.1 ∧
    accountsWF out.1 out.2.1 ∧
    (∀ id : AccountId, id.val ≤ env.accCounter →
      out.1.accounts.lookup id = env.accounts.lookup id) ∧
    entrySpec entry ⟨env.accCounter + 1⟩ out.1 out.2.1 ∧
    (∃ bytes, entryAddrBytes entry = some bytes ∧
      out.2.2.1 = if BVal.constVec bytes = vaddr then
        (⟨env.accCounter + 1⟩ : AccountId) else vic) := by
  simp only [processEntry, Option.bind_eq_bind, Option.bind_eq_some,
    Option.pure_def, Option.some.injEq] at hrun
  obtain ⟨addrStr, h1, bytes, h2, bal, h3, sHash, h4, r, hracc, ub, hub,
    env5, henv5, hout⟩ := hrun
  obtain ⟨hid, hcnt, ⟨ext, hext⟩, hwfA, hawA, hpresA, acc, hlookA, haddrA,
    hbalA, hinitBA, hcodeF, hcodeT⟩ :=
    processEntryAccount_spec vaddr (BVal.constVec bytes) bal entry.2 sHash
      env mem gs r hracc hwf haw
  obtain ⟨accM, haccM, heqM, hlookM, hotherM, hcntM, hloadM⟩ :=
    modifyAccount_lookup r.2.1 r.1 _ env5 henv5
  rw [hlookA] at haccM
  cases haccM
  have hEAB : entryAddrBytes entry = some bytes := by
    rw [entryAddrBytes, h1]
    exact h2
  subst hout
  refine ⟨?_, ⟨ext, hext⟩, hwfA, ?_, ?_, ?_, ?_⟩
  · show env5.accCounter = env.accCounter + 1
    rw [hcntM, hcnt]
  · intro p hp
    have hp5 : p ∈ env5.accounts := hp
    rcases mem_alistInsert _ _ _ p (heqM ▸ hp5) with hq | hq
    · subst hq
      constructor
      · show r.1.val ≤ env5.accCounter
        rw [hcntM, hcnt, hid]
      · show acc.storage < _
        exact (hawA _ (mem_of_lookup hlookA)).2
    · obtain ⟨hb1, hb2⟩ := hawA p hq
      constructor
      · show p.1.val ≤ env5.accCounter
        rw [hcntM]
        exact hb1
      · exact hb2
  · intro id hidle
    have hne : id ≠ r.1 := by
      intro hc
      rw [hc, hid] at hidle
      dsimp at hidle
      exact Nat.not_succ_le_self _ hidle
    show env5.accounts.lookup id = _
    rw [hotherM id hne, hpresA id hidle]
  · refine ⟨bytes, bal, { acc with initialBalance := some ub }, sHash, hEAB,
      h3, h4, ?_, haddrA, hbalA, ?_, ?_, ?_⟩
    · show env5.accounts.lookup ⟨env.accCounter + 1⟩ = _
      rw [← hid, hlookM]
    · show some ub = bal.asRevmU256
      exact hub.symm
    · intro hc
      obtain ⟨c1, c2, c3, c4⟩ := hcodeF hc
      exact ⟨c1, c2, c3, c4⟩
    · intro hc
      obtain ⟨hcb, hsb, hsg, hob, hog⟩ := hcodeT hc
      exact ⟨hcb, hsb, hsg, hob, hog⟩
  · exact ⟨bytes, hEAB, by rw [hid]⟩


theorem processEntries_spec (vaddr : BVal) :
    ∀ (entries : List (Yaml × Yaml)) (env : Env) (mem : SymbolicMemory)
      (vic : AccountId) (gs : GState)
      (out : Env × SymbolicMemory × AccountId × GState),
      processEntries vaddr entries (env, mem, vic, gs) = some out →
      memWF mem → accountsWF env mem →
      out.1.accCounter = env.accCounter + entries.length ∧
      (∃ ext, out.2.1 = mem ++ ext) ∧
      memWF out.2.1 ∧
      accountsWF out.1 out.2.1 ∧
      (∀ id : AccountId, id.val ≤ env.accCounter →
        out.1.accounts.lookup id = env.accounts.lookup id) ∧
      (∀ i, ∀ h : i < entries.length,
        entrySpec (entries.get ⟨i, h⟩) ⟨env.accCounter + i + 1⟩ out.1
          out.2.1) ∧
      ((∃ p ∈ entries, entryAddrB p = some vaddr) →
        ∃ acc, out.1.accounts.lookup out.2.2.1 = some acc ∧
          acc.addr = vaddr) ∧
      ((¬ ∃ p ∈ entries, entryAddrB p = some vaddr) → out.2.2.1 = vic) := by
  intro entries
  induction entries with
  | nil =>
    intro env mem vic gs out hrun hwf haw
    cases hrun
    refine ⟨by simp, ⟨[], by simp⟩, hwf, haw, fun _ _ => rfl, ?_, ?_, ?_⟩
    · intro i h
      simp at h
    · intro hm
      simp at hm
    · intro _
      rfl
  | cons hd tl ih =>
    intro env mem vic gs out hrun hwf haw
    simp only [processEntries, Option.bind_eq_bind, Option.bind_eq_some]
      at hrun
    obtain ⟨st1, hstep, hrest⟩ := hrun
    obtain ⟨env1, mem1, vic1, gs1⟩ := st1
    obtain ⟨hcnt1, ⟨ext1, hext1⟩, hwf1, haw1, hpres1, hes1, hvic1⟩ :=
      processEntry_spec vaddr hd env mem vic gs (env1, mem1, vic1, gs1)
        hstep hwf haw
    dsimp only at hcnt1 hext1 hwf1 haw1 hpres1 hes1 hvic1
    obtain ⟨hcnt2, ⟨ext2, hext2⟩, hwf2, haw2, hpres2, hes2, hmat2, hnomat2⟩ :=
      ih env1 mem1 vic1 gs1 out hrest hwf1 haw1
    have hpresC : ∀ id : AccountId, id.val ≤ env.accCounter + 1 →
        out.1.accounts.lookup id = env1.accounts.lookup id := by
      intro id hle
      exact hpres2 id (by rw [hcnt1]; exact hle)
    have hes0 : entrySpec hd ⟨env.accCounter + 1⟩ out.1 out.2.1 := by
      refine entrySpec_stable hd ⟨env.accCounter + 1⟩ env1 out.1 mem1 out.2.1
        hes1 ?_ ⟨ext2, hext2⟩ hwf1 ?_
      · exact hpresC ⟨env.accCounter + 1⟩ (Nat.le_refl _)
      · intro acc hl
        exact (haw1 _ (mem_of_lookup hl)).2
    refine ⟨?_, ?_, hwf2, haw2, ?_, ?_, ?_, ?_⟩
    · rw [hcnt2, hcnt1]
      simp
      omega
    · refine ⟨ext1 ++ ext2, ?_⟩
      rw [hext2, hext1, List.append_assoc]
    · intro id hle
      rw [hpresC id (by omega), hpres1 id hle]
    · intro i h
      cases i with
      | zero =>
        simpa using hes0
      | succ i =>
        have hlt : i < tl.length := by simpa using h
        have h5 := hes2 i hlt
        rw [hcnt1] at h5
        have harith : env.accCounter + 1 + i + 1 =
            env.accCounter + (i + 1) + 1 := by
          omega
        rw [harith] at h5
        simpa using h5
    · intro hm
      by_cases hmt : ∃ p ∈ tl, entryAddrB p = some vaddr
      · exact hmat2 hmt
      · have hvv := hnomat2 hmt
        obtain ⟨bytes, hEAB, hv1⟩ := hvic1
        have hhd : entryAddrB hd = some vaddr := by
          rcases hm with ⟨p, hp, hpe⟩
          rcases List.mem_cons.mp hp with hq | hq
          · rw [← hq]
            exact hpe
          · exact absurd ⟨p, hq, hpe⟩ hmt
        have hbv : BVal.constVec bytes = vaddr := by
          rw [entryAddrB, hEAB] at hhd
          simpa using hhd
        rw [hbv] at hv1
        rw [if_pos rfl] at hv1
        obtain ⟨bytes', bal, accH, sH, hEAB', hbal', hsH', hlookH, haddrH,
          hrest'⟩ := hes0
        have hbb : bytes' = bytes := by
          rw [hEAB] at hEAB'
          cases hEAB'
          rfl
        refine ⟨accH, ?_, ?_⟩
        · rw [hvv, hv1]
          exact hlookH
        · rw [haddrH, hbb, hbv]
    · intro hnm
      have hmt : ¬ ∃ p ∈ tl, entryAddrB p = some vaddr := by
        intro ⟨p, hp, hpe⟩
        exact hnm ⟨p, List.mem_cons_of_mem hd hp, hpe⟩
      have hvv := hnomat2 hmt
      obtain ⟨bytes, hEAB, hv1⟩ := hvic1
      have hhd : ¬ BVal.constVec bytes = vaddr := by
        intro hc
        refine hnm ⟨hd, List.mem_cons_self hd tl, ?_⟩
        simp [entryAddrB, hEAB, hc]
      rw [if_neg hhd] at hv1
      rw [hvv, hv1]


theorem initialSeState_spec (gs : GState) :
    (initialSeState gs).1 = ⟨1⟩ ∧
    (initialSeState gs).2.1.accCounter = 2 ∧
    memWF (initialSeState gs).2.2.1 ∧
    accountsWF (initialSeState gs).2.1 (initialSeState gs).2.2.1 ∧
    (∃ a, (initialSeState gs).2.1.accounts.lookup ⟨1⟩ = some a ∧
      a.addr = BVal.const256 ORIGIN ∧
      a.initialAttackerBalance = some a.balance) := by
  refine ⟨rfl, rfl, ?_, ?_, ?_⟩
  · intro i e h p hp
    match i, h with
    | 0, h =>
      cases h
      cases hp
    | 1, h =>
      cases h
      cases hp
  · intro p hp
    rcases List.mem_cons.mp hp with h1 | h1
    · subst h1
      exact ⟨by show (1 : Nat) ≤ 2; decide, by show (0 : Nat) < 2; decide⟩
    · rcases List.mem_cons.mp h1 with h2 | h2
      · subst h2
        exact ⟨by show (2 : Nat) ≤ 2; decide, by show (1 : Nat) < 2; decide⟩
      · cases h2
  · exact ⟨_, rfl, rfl, rfl⟩


/-- C6 (amended): for a successfully parsed YAML input, `from_yaml` returns
the freshly created attacker account as `from`; each `state` entry becomes
one account (under id `i + 3` for the `i`-th entry) with the decoded
address, the parsed balance and the optional code, where storage pairs are
word-written into the account's symbolic storage and recorded in
`initial_storage`, and an `owner` entry is stored as the owner slot hint —
but only for entries that carry a `code` key (a codeless entry's `storage`
and `owner` entries are ignored, see the counterexample); and `to` is the
id of the (last) account whose address equals the parsed `victim`
address. -/
theorem fromYaml_spec (y : Yaml) (gs : GState) (se : SeEnviroment)
    (gs' : GState)
    (hrun : SeEnviroment.fromYaml y gs = some (se, gs')) :
    se.from_ = ⟨1⟩ ∧
    (∃ a, se.env.accounts.lookup ⟨1⟩ = some a ∧
      a.addr = BVal.const256 ORIGIN ∧
      a.initialAttackerBalance = some a.balance) ∧
    (∀ entries, (y.get "state").asHash = some entries →
      ∀ i, ∀ h : i < entries.length,
        entrySpec (entries.get ⟨i, h⟩) ⟨i + 3⟩ se.env se.memory) ∧
    (∀ vbytes, ((y.get "victim").asStr.bind hexdecode) = some vbytes →
      ∀ entries, (y.get "state").asHash = some entries →
      (∃ p ∈ entries, entryAddrB p = some (BVal.constVec vbytes)) →
      ∃ acc, se.env.accounts.lookup se.to_ = some acc ∧
        acc.addr = BVal.constVec vbytes) := by
  simp only [SeEnviroment.fromYaml, Option.bind_eq_bind, Option.bind_eq_some,
    Option.pure_def, Option.some.injEq, Prod.mk.injEq] at hrun
  obtain ⟨vs, hvs, vbytes0, hvb, entries0, hent, rout, hPE, hse, hgs⟩ := hrun
  obtain ⟨hatt1, hcnt0, hwf0, haw0, a, hlookA, haddrA, hiab⟩ :=
    initialSeState_spec gs
  obtain ⟨hcntF, ⟨ext, hextF⟩, hwfF, hawF, hpresF, hesF, hmatF, hnomatF⟩ :=
    processEntries_spec (BVal.constVec vbytes0) entries0
      (initialSeState gs).2.1 (initialSeState gs).2.2.1 ⟨0⟩
      (initialSeState gs).2.2.2 rout hPE hwf0 haw0
  cases hse
  refine ⟨?_, ?_, ?_, ?_⟩
  · show (initialSeState gs).1 = _
    rw [hatt1]
  · refine ⟨a, ?_, haddrA, hiab⟩
    show rout.1.accounts.lookup ⟨1⟩ = some a
    rw [hpresF ⟨1⟩ (by rw [hcnt0]; decide)]
    exact hlookA
  · intro entries hE i h
    rw [hent] at hE
    cases hE
    have h5 := hesF i h
    rw [hcnt0] at h5
    have harith : 2 + i + 1 = i + 3 := by omega
    rw [harith] at h5
    exact h5
  · intro vb hvb' entries hE hmatch
    rw [hent] at hE
    cases hE
    rw [hvs] at hvb'
    simp only [Option.some_bind] at hvb'
    rw [hvb] at hvb'
    cases hvb'
    exact hmatF hmatch


/-- Witness for C6: `fromYaml_spec` applied to the concrete input `yC6w`,
whose single state entry carries code, placing it under account id 3. -/
theorem fromYaml_spec_witness :
    runC6w.1.from_ = (⟨1⟩ : AccountId) ∧
    entrySpec (entriesC6w.get ⟨0, by decide⟩) ⟨3⟩ runC6w.1.env
      runC6w.1.memory := by
  have h := fromYaml_spec yC6w gsC6w runC6w.1 runC6w.2 rfl
  exact ⟨h.1, h.2.2.1 entriesC6w rfl 0 (by decide)⟩


/-- Counterexample to C6 as stated: on `yC6c` the parse succeeds and the
single state entry has a non-empty `storage` map, yet — because the entry
carries no `code` key — the resulting account (id 3) records no
`initial_storage` and its symbolic storage has received no write at all:
`from_yaml` ignores `storage` (and `owner`) for codeless entries. -/
theorem fromYaml_storage_ignored_without_code :
    (SeEnviroment.fromYaml yC6c gsC6w).isSome = true ∧
    (yC6c.get "state").asHash = some entriesC6c ∧
    ((entriesC6c.get ⟨0, by decide⟩).2.get "storage").asHash =
      some [(Yaml.str "0x00", Yaml.str "0x07")] ∧
    ∃ acc, runC6c.1.env.accounts.lookup ⟨3⟩ = some acc ∧
      acc.initialStorage = none ∧
      chainWrites runC6c.1.memory acc.storage = [] := by
  refine ⟨rfl, rfl, rfl, ?_⟩
  exact ⟨_, rfl, rfl, rfl⟩

end EthBMC
